import Mathlib

set_option maxRecDepth 20000

/-!
Shallow embedding of the `bitmath` crate (`src/lib.rs`).

A `Bits<SIZE>` value is an array `[bool; SIZE]`, index 0 = most significant
bit.  We embed it as a `List Bool` whose length plays the role of `SIZE`
(the Rust type system guarantees the array always has exactly `SIZE`
elements; theorems carry the length as a hypothesis where a second width
parameter is involved).

Machine integers are embedded as `Nat` / `Int` with explicit reductions.
`u32`/`u64` accumulators are built with `% 2 ^ 32` / `% 2 ^ 64` at each
shift (Rust `<<=` discards shifted-out bits); `usize`, `u32` and `u64`
additions and subtractions that can leave the machine range are wrapped
modulo the width; `as i32` / `as i64` casts and overflowing `i32`/`i64`
arithmetic are modelled by the two's-complement wraps `i32Wrap` / `i64Wrap`.
Wrapping is the release-build semantics: where a debug build would abort on
the same overflow instead, the definition's doc comment says so, and no
claim below depends on a point where the two build modes disagree except
where explicitly noted.  Fallible operations return `Except BitsError`, and
a `panic!`-style abort (`unwrap` of `None`, out-of-bounds slice index,
remainder by zero) is modelled by `Option`, `none` meaning the program
aborts.
-/

namespace Bitmath

/-- `fn bit(b: bool) -> usize` from the source. -/
def bit (b : Bool) : ℕ := if b then 1 else 0

/-- `enum BitsError` from the source. -/
inductive BitsError where
  | InvalidInputString : BitsError
  | BitWidthMismatch : (expected : ℕ) → (found : ℕ) → BitsError
  | BitIndexOutOfRange : BitsError
deriving DecidableEq, Repr

/-- `Bits::new()` / `Default::default()`: all `SIZE` bits false. -/
def Bits.new (SIZE : ℕ) : List Bool := List.replicate SIZE false

/-- `Bits::from_signed(x: i32)`.  The Rust loop pushes, for `i < SIZE`
(resp. `i < 32`), the bit `((x >> (SIZE-1-i)) & 1) != 0` where `>>` is the
arithmetic shift on `i32`; for shift amounts `≤ 31` this extracts bit
`SIZE-1-i` of the 32-bit two's-complement pattern of `x`, which we take as
`(x.emod 2^32).toNat`.  For `SIZE > 32` it first pushes `SIZE - 32` copies
of the sign. -/
def Bits.from_signed (SIZE : ℕ) (x : ℤ) : List Bool :=
  let pat : ℕ := (x % (2 ^ 32)).toNat
  if SIZE ≤ 32 then
    (List.range SIZE).map (fun i => ((pat >>> (SIZE - 1 - i)) &&& 1) != 0)
  else
    List.replicate (SIZE - 32) (decide (x < 0)) ++
      (List.range 32).map (fun i => ((pat >>> (31 - i)) &&& 1) != 0)

/-- `Bits::from_unsigned(x: u32)` (`x < 2^32`). -/
def Bits.from_unsigned (SIZE : ℕ) (x : ℕ) : List Bool :=
  if SIZE ≤ 32 then
    (List.range SIZE).map (fun i => ((x >>> (SIZE - 1 - i)) &&& 1) != 0)
  else
    List.replicate (SIZE - 32) false ++
      (List.range 32).map (fun i => ((x >>> (31 - i)) &&& 1) != 0)

/-- `Bits::from_slice(slice: &[bool])`. -/
def Bits.from_slice (SIZE : ℕ) (slice : List Bool) : Except BitsError (List Bool) :=
  if slice.length ≠ SIZE then
    .error (.BitWidthMismatch SIZE slice.length)
  else
    .ok slice

/-- `Bits::from_reverse_index(slice, hi, lo)`.  `hi`, `lo` and
`slice.len()` are `usize` values (so `< 2^64`).  The `usize` additions and
subtractions wrap modulo `2 ^ 64` (release semantics; a debug build aborts
on `high - low + 1` at `high - low = 2^64 - 1` and on `slice.len() - high`
when `high > slice.len()`), and the slice index
`slice[slice.len() - high - 1 + i]` aborts when out of bounds — modelled by
the outer `Option` (`none` = abort). -/
def Bits.from_reverse_index (SIZE : ℕ) (slice : List Bool) (hi lo : ℕ) :
    Option (Except BitsError (List Bool)) :=
  let high := max lo hi
  let low := min lo hi
  let width := (high - low + 1) % 2 ^ 64
  let diff := (slice.length + 2 ^ 64 - high) % 2 ^ 64
  if diff < 1 then
    some (.error .BitIndexOutOfRange)
  else if width ≠ SIZE then
    some (.error (.BitWidthMismatch SIZE width))
  else
    ((List.range SIZE).foldlM
      (fun copied i => (slice.get? ((diff + 2 ^ 64 - 1 + i) % 2 ^ 64)).map
        (fun b => copied.set i b))
      (List.replicate SIZE false)).map .ok

/-- `Bits::get_bit(n)`: `self.0.get(n)`. -/
def Bits.get_bit (bits : List Bool) (n : ℕ) : Option Bool := bits.get? n

/-- `Bits::get_bit_mut(n)`: same presence behaviour as `get_bit` (the
returned reference designates the same bit). -/
def Bits.get_bit_mut (bits : List Bool) (n : ℕ) : Option Bool := bits.get? n

/-- `impl Index<usize> for Bits`: `self.get_bit(index).unwrap()`, so the
operator aborts exactly when `get_bit` is `None` (`none` = abort). -/
def Bits.index_op (bits : List Bool) (n : ℕ) : Option Bool :=
  Bits.get_bit bits n

/-- The `unsafe { std::mem::transmute }` of a `u32` pattern to `i32`. -/
def toSigned32 (pat : ℕ) : ℤ :=
  if pat < 2 ^ 31 then (pat : ℤ) else (pat : ℤ) - 2 ^ 32

/-- Two's-complement wrap of an integer into `i32`: the value of an
`as i32` cast, and of overflowing `i32` arithmetic in a release build (a
debug build aborts on the arithmetic overflows; the two agree wherever the
mathematical result already fits in `i32`). -/
def i32Wrap (z : ℤ) : ℤ := toSigned32 ((z % 2 ^ 32).toNat)

/-- The `unsafe`-free reinterpretation of a `u64` pattern as `i64`. -/
def toSigned64 (pat : ℕ) : ℤ :=
  if pat < 2 ^ 63 then (pat : ℤ) else (pat : ℤ) - 2 ^ 64

/-- Two's-complement wrap of an integer into `i64` (release semantics for
overflowing `i64` arithmetic such as the negation in `signed_add`). -/
def i64Wrap (z : ℤ) : ℤ := toSigned64 ((z % 2 ^ 64).toNat)

/-- `Bits::unsigned_value()`: builds a `u32` accumulator; `result <<= 1`
discards the shifted-out bit (`% 2 ^ 32`), `result |= …` is bitwise or.
`start_idx` is `(SIZE as i32 - 32).max(0) as usize` with its truncating
`as i32` cast and possibly overflowing `i32` subtraction (release wrap;
a debug build aborts on the subtraction for `2^31 ≤ SIZE ≤ 2^31 + 31`). -/
def Bits.unsigned_value (bits : List Bool) : ℕ :=
  let SIZE := bits.length
  let start_idx := (max (i32Wrap (i32Wrap (SIZE : ℤ) - 32)) 0).toNat
  (List.range (min SIZE 32)).foldl
    (fun result i => ((result <<< 1) % 2 ^ 32) ||| bit (bits.getD (start_idx + i) false))
    0

/-- `Bits::signed_value()`.  `start_idx` and `extend_bits` carry the
source's truncating `SIZE as i32` casts and possibly overflowing `i32`
subtractions (release wrap; a debug build aborts on the overflow, which
first happens at `SIZE = 2^31`).  The source aborts at `self.0[0]` on an
empty vector; every claim about `signed_value` concerns widths `≥ 1`, and
this embedding is only invoked on nonempty vectors. -/
def Bits.signed_value (bits : List Bool) : ℤ :=
  let SIZE := bits.length
  let start_idx := (max (i32Wrap (i32Wrap (SIZE : ℤ) - 32)) 0).toNat
  let extend_bits := (max (i32Wrap (32 - i32Wrap (SIZE : ℤ))) 0).toNat
  let is_negative := bits.getD 0 false
  let r1 := (List.range extend_bits).foldl
    (fun result _ => ((result <<< 1) % 2 ^ 32) ||| (if is_negative then 1 else 0)) 0
  let r2 := (List.range (min SIZE 32)).foldl
    (fun result i => ((result <<< 1) % 2 ^ 32) ||| bit (bits.getD (start_idx + i) false))
    r1
  toSigned32 r2

/-- The mask loop shared by `unsigned_add`/`signed_add`: starts at `1` and
performs `SIZE - 1` steps of `mask <<= 1; mask |= 1` on a 64-bit integer.
The `usize` iteration count `SIZE - 1` wraps at `SIZE = 0` to `2^64 - 1`
(release; a debug build aborts on the subtraction there). -/
def Bits.add_mask (SIZE : ℕ) : ℕ :=
  (List.range ((SIZE + 2 ^ 64 - 1) % 2 ^ 64)).foldl
    (fun mask _ => ((mask <<< 1) % 2 ^ 64) ||| 1) 1

/-- `Bits::unsigned_add`.  The two `u32` values are widened exactly into
`u64`; `(sum & mask) as u32` truncates modulo `2 ^ 32`; the overflow flag
is `(sum >> SIZE) > 0`, where the `u64` shift masks its amount modulo 64
(release semantics; a debug build aborts on the shift for `SIZE ≥ 64`). -/
def Bits.unsigned_add (a b : List Bool) : List Bool × Bool :=
  let SIZE := a.length
  let sum := Bits.unsigned_value a + Bits.unsigned_value b
  let result := (sum &&& Bits.add_mask SIZE) % 2 ^ 32
  (Bits.from_unsigned SIZE result, decide (sum >>> (SIZE % 64) > 0))

/-- `Bits::signed_add`.  The two `i32` values are widened exactly into
`i64` and summed exactly (`|sum| ≤ 2^32`, no `i64` overflow); `sum & mask`
is computed on the two's-complement `u64` pattern of the sum; `as i32`
truncates the pattern modulo `2 ^ 32` and reinterprets it.  The overflow
bound `2u64.pow(SIZE as u32 - 1)` carries the `u32` wrap of its exponent,
the `u64` wrap of the power (zero from `SIZE ≥ 65` on) and of the `- 1`,
and the `i64` wrap of the negation (all release semantics; a debug build
aborts on each of these overflows instead). -/
def Bits.signed_add (a b : List Bool) : List Bool × Bool :=
  let SIZE := a.length
  let sum := Bits.signed_value a + Bits.signed_value b
  let sumPat : ℕ := (sum % (2 ^ 64)).toNat
  let result := toSigned32 ((sumPat &&& Bits.add_mask SIZE) % 2 ^ 32)
  let pow64 : ℕ := 2 ^ ((SIZE % 2 ^ 32 + 2 ^ 32 - 1) % 2 ^ 32) % 2 ^ 64
  let overflow := decide (sum < i64Wrap (-(toSigned64 pow64))
    ∨ sum > toSigned64 ((pow64 + 2 ^ 64 - 1) % 2 ^ 64))
  (Bits.from_signed SIZE result, overflow)

/-- `Bits::rotate_right(n)`: `n` is reduced `% SIZE` first — on an empty
vector that remainder by zero aborts in every build mode (`none`) — then
`result.0[(i+n)%SIZE] = self.0[i]` for each `i`. -/
def Bits.rotate_right (v : List Bool) (n : ℕ) : Option (List Bool) :=
  let SIZE := v.length
  if SIZE = 0 then none
  else
    let m := n % SIZE
    some ((List.range SIZE).foldl
      (fun result i => result.set ((i + m) % SIZE) (v.getD i false))
      (Bits.new SIZE))

/-- `Bits::rotate_left(n)`: `result.0[(i+SIZE-n)%SIZE] = self.0[i]`; the
`n % SIZE` reduction aborts on an empty vector (`none`). -/
def Bits.rotate_left (v : List Bool) (n : ℕ) : Option (List Bool) :=
  let SIZE := v.length
  if SIZE = 0 then none
  else
    let m := n % SIZE
    some ((List.range SIZE).foldl
      (fun result i => result.set ((i + SIZE - m) % SIZE) (v.getD i false))
      (Bits.new SIZE))

/-- One lowercase hex digit, as produced by Rust's `{:x}` formatting. -/
def hexDigit (n : ℕ) : Char :=
  if n < 10 then Char.ofNat (48 + n) else Char.ofNat (87 + n)

/-- The minimal lowercase hex digits of `x`, most significant first —
always at least one digit, exactly as Rust's `{:x}` renders a `u32`. -/
def hexDigits (x : ℕ) : List Char :=
  if h : x < 16 then [hexDigit x]
  else hexDigits (x / 16) ++ [hexDigit (x % 16)]
decreasing_by exact Nat.div_lt_self (by omega) (by norm_num)

/-- `format!("{:01$x}", x, w)`: `x` rendered in lowercase hex, left-padded
with zeros to a minimum of `w` digits; the formatter never truncates and
always emits at least one digit (so `w = 0` still renders `x`). -/
def hexStringPad (w : ℕ) (x : ℕ) : List Char :=
  List.replicate (w - (hexDigits x).length) '0' ++ hexDigits x

/-- The §4.6 digit string as the spec words it: exactly `w` zero-padded
hex digits of `x`, most significant first (it agrees with the program's
`hexStringPad` whenever `1 ≤ w` and `x < 16 ^ w`, and nowhere else is it
used). -/
def specHexDigits (w : ℕ) (x : ℕ) : List Char :=
  (List.range w).map (fun i => hexDigit ((x / 16 ^ (w - 1 - i)) % 16))

/-- Rust's `slice.chunks(2)`: split into consecutive pairs, a final odd
element forming a singleton chunk. -/
def chunks2 {α : Type} : List α → List (List α)
  | [] => []
  | [a] => [[a]]
  | a :: b :: rest => [a, b] :: chunks2 rest

/-- `SIZE as f32`, as a natural number: round to nearest, ties to even,
onto a 24-bit significand (Rust's int-to-float cast semantics).  Exact for
`n ≤ 2 ^ 24`; above that it can move `n` to the nearest representable
multiple of the ulp, e.g. `2^24 + 1` rounds down to `2^24`. -/
def toF32val (n : ℕ) : ℕ :=
  if n ≤ 2 ^ 24 then n
  else
    let k := n.log2 - 23
    let q := n / 2 ^ k
    let r := n % 2 ^ k
    if 2 * r < 2 ^ k then q * 2 ^ k
    else if 2 ^ k < 2 * r then (q + 1) * 2 ^ k
    else (if q % 2 = 0 then q else q + 1) * 2 ^ k

/-- `Bits::pretty_uhex_string()`.  `digits = (SIZE as f32 / 4.0).ceil() as
usize`: the cast rounds `SIZE` onto 24 significand bits (`toF32val`), the
division by `4.0` and the ceiling are then exact, giving
`⌈toF32val SIZE / 4⌉`; `.replace(" ","")` on each chunk is
`filter (· ≠ ' ')`; `.join(" ")` is `String.intercalate " "`. -/
def Bits.pretty_uhex_string (v : List Bool) : String :=
  let SIZE := v.length
  let digits := (toF32val SIZE + 3) / 4
  let hex_padding := digits % 2
  let uhex_chars := List.replicate hex_padding ' ' ++
    hexStringPad digits (Bits.unsigned_value v)
  String.intercalate " "
    ((chunks2 uhex_chars).map (fun chunk => String.mk (chunk.filter (fun c => c ≠ ' '))))

/-- `impl TryFrom<&str> for Bits`.  `.replace(" ","")` strips space
characters; the validity test rejects over-long or non-binary input; the
fill loop does `input.chars().nth(i).unwrap()` for every `i < N`, which
aborts (`none`) as soon as `i` reaches the stripped length. -/
def Bits.try_from (N : ℕ) (input : List Char) : Option (Except BitsError (List Bool)) :=
  let inp := input.filter (fun c => c != ' ')
  if N < inp.length ∨ inp.any (fun c => c != '0' && c != '1') then
    some (.error .InvalidInputString)
  else
    ((List.range N).foldlM
      (fun result i => (inp.get? i).map (fun c => result.set i (c != '0')))
      (List.replicate N false)).map .ok

/-- Spec-side rendering of §4.6's grouped-hex description, for comparison
with `Bits.pretty_uhex_string`: the `digits` zero-padded hex digits of `x`
(exactly that many, as the spec words it), grouped into 2-digit chunks
aligned from the right, the first chunk of width 1 when the digit count is
odd, with no blank placeholder left in. -/
def specHexGroups (digits x : ℕ) : List (List Char) :=
  let d := specHexDigits digits x
  if digits % 2 = 1 then d.take 1 :: chunks2 (d.drop 1) else chunks2 d

/-! ### Generic helper lemmas -/

lemma bit_le_one (b : Bool) : bit b ≤ 1 := by cases b <;> simp [bit]

lemma bit_toNat (b : Bool) : bit b = b.toNat := by cases b <;> rfl

lemma two_mul_lor (r b : ℕ) (hb : b ≤ 1) : 2 * r ||| b = 2 * r + b := by
  interval_cases b
  · simp
  · apply Nat.eq_of_testBit_eq
    intro k
    cases k with
    | zero =>
      simp only [Nat.testBit_lor, Nat.testBit_zero]
      have h1 : (2 * r) % 2 = 0 := by omega
      have h2 : (2 * r + 1) % 2 = 1 := by omega
      simp [h1, h2]
    | succ k =>
      rw [Nat.testBit_lor, Nat.testBit_succ, Nat.testBit_succ, Nat.testBit_succ]
      have h1 : (2 * r) / 2 = r := by omega
      have h2 : (2 * r + 1) / 2 = r := by omega
      have h3 : (1 : ℕ) / 2 = 0 := by norm_num
      rw [h1, h2, h3]
      simp [Nat.zero_testBit]

/-- The accumulator step `result <<= 1; result |= b` of the `u32` value
loops, in the region where the shift cannot wrap. -/
lemma step_eq (r b : ℕ) (hb : b ≤ 1) (hr : r < 2 ^ 31) :
    ((r <<< 1) % 2 ^ 32) ||| b = 2 * r + b := by
  rw [Nat.shiftLeft_eq, Nat.mod_eq_of_lt (by norm_num at hr ⊢; omega)]
  rw [show r * 2 ^ 1 = 2 * r by ring]
  exact two_mul_lor r b hb

lemma sum_two_pow (n : ℕ) : ∑ i ∈ Finset.range n, 2 ^ i = 2 ^ n - 1 := by
  induction n with
  | zero => simp
  | succ n ih =>
    rw [Finset.sum_range_succ, ih]
    have := Nat.two_pow_pos n
    omega

lemma sum_bits_le (L : ℕ) (h : ℕ → ℕ) (hb : ∀ i, h i ≤ 1) :
    ∑ i ∈ Finset.range L, h i * 2 ^ (L - 1 - i) ≤ 2 ^ L - 1 := by
  calc ∑ i ∈ Finset.range L, h i * 2 ^ (L - 1 - i)
      ≤ ∑ i ∈ Finset.range L, 2 ^ (L - 1 - i) := by
        apply Finset.sum_le_sum
        intro i _
        exact le_trans (Nat.mul_le_mul_right _ (hb i)) (by rw [one_mul])
    _ = ∑ i ∈ Finset.range L, 2 ^ i := Finset.sum_range_reflect (fun j => 2 ^ j) L
    _ = 2 ^ L - 1 := sum_two_pow L

/-- Value of the `u32` accumulator loop: `L ≤ 32` shift-or steps starting
from `a` (small enough that no shift wraps) build
`a * 2^L + Σ h i * 2^(L-1-i)`. -/
lemma fold_bits (L : ℕ) (hL : L ≤ 32) (h : ℕ → ℕ) (hb : ∀ i, h i ≤ 1) (a : ℕ)
    (ha : a < 2 ^ (32 - L)) :
    (List.range L).foldl (fun r i => ((r <<< 1) % 2 ^ 32) ||| h i) a
      = a * 2 ^ L + ∑ i ∈ Finset.range L, h i * 2 ^ (L - 1 - i) := by
  induction L with
  | zero => simp
  | succ L ih =>
    have hL' : L ≤ 32 := by omega
    have ha' : a < 2 ^ (32 - L) := by
      exact lt_of_lt_of_le ha (Nat.pow_le_pow_right (by norm_num) (by omega))
    rw [List.range_succ, List.foldl_append]
    rw [ih hL' ha']
    have hprev : a * 2 ^ L + ∑ i ∈ Finset.range L, h i * 2 ^ (L - 1 - i) < 2 ^ 31 := by
      have h1 : ∑ i ∈ Finset.range L, h i * 2 ^ (L - 1 - i) ≤ 2 ^ L - 1 := sum_bits_le L h hb
      have h2 : a ≤ 2 ^ (31 - L) - 1 := by
        rw [show 32 - (L + 1) = 31 - L by omega] at ha
        omega
      have h3 : (2 ^ (31 - L) - 1) * 2 ^ L + (2 ^ L - 1) < 2 ^ 31 := by
        have hp : 2 ^ (31 - L) * 2 ^ L = 2 ^ 31 := by
          rw [← pow_add]
          congr 1
          omega
        have hX := Nat.two_pow_pos (31 - L)
        have hY := Nat.two_pow_pos L
        have hsub : (2 ^ (31 - L) - 1) * 2 ^ L = 2 ^ (31 - L) * 2 ^ L - 2 ^ L := by
          rw [Nat.sub_mul, one_mul]
        have hYle : 2 ^ L ≤ 2 ^ (31 - L) * 2 ^ L := Nat.le_mul_of_pos_left _ hX
        rw [hsub, hp]
        rw [hp] at hYle
        omega
      calc a * 2 ^ L + ∑ i ∈ Finset.range L, h i * 2 ^ (L - 1 - i)
          ≤ (2 ^ (31 - L) - 1) * 2 ^ L + (2 ^ L - 1) :=
            Nat.add_le_add (Nat.mul_le_mul_right _ h2) h1
        _ < 2 ^ 31 := h3
    simp only [List.foldl_cons, List.foldl_nil]
    rw [step_eq _ _ (hb L) hprev]
    rw [Finset.sum_range_succ]
    have hsum : ∑ i ∈ Finset.range L, h i * 2 ^ (L + 1 - 1 - i)
        = 2 * ∑ i ∈ Finset.range L, h i * 2 ^ (L - 1 - i) := by
      rw [Finset.mul_sum]
      apply Finset.sum_congr rfl
      intro i hi
      rw [Finset.mem_range] at hi
      have : L + 1 - 1 - i = (L - 1 - i) + 1 := by omega
      rw [this, pow_succ]
      ring
    have hlast : h L * 2 ^ (L + 1 - 1 - L) = h L := by
      have : L + 1 - 1 - L = 0 := by omega
      simp [this]
    rw [hsum, hlast]
    ring

/-- `Σ_{i<n} testBit x i · 2^i = x % 2^n`. -/
lemma sum_testBit (n x : ℕ) :
    ∑ i ∈ Finset.range n, (x.testBit i).toNat * 2 ^ i = x % 2 ^ n := by
  induction n with
  | zero => simp [Nat.mod_one]
  | succ n ih =>
    rw [Finset.sum_range_succ, ih, Nat.mod_pow_succ]
    rcases Nat.mod_two_eq_zero_or_one (x / 2 ^ n) with hm | hm <;>
      simp [Nat.testBit_to_div_mod, hm, Nat.mul_comm]

/-- The source's bit extraction `(x >> k) & 1 != 0` is `Nat.testBit`. -/
lemma shift_and_testBit (x k : ℕ) : (((x >>> k) &&& 1) != 0) = x.testBit k := by
  rw [Nat.and_one_is_mod, Nat.shiftRight_eq_div_pow, Nat.testBit_to_div_mod]
  rcases Nat.mod_two_eq_zero_or_one (x / 2 ^ k) with h | h <;> simp [h]

lemma getD_map_range (g : ℕ → Bool) (N i : ℕ) (hi : i < N) :
    ((List.range N).map g).getD i false = g i := by
  rw [List.getD_eq_getElem _ _ (by simpa using hi), List.getElem_map, List.getElem_range]

/-! ### The `as i32` / `as i64` wraps on their exact ranges -/

lemma i32Wrap_eq_self (z : ℤ) (hl : -(2 ^ 31) ≤ z) (hu : z < 2 ^ 31) : i32Wrap z = z := by
  unfold i32Wrap
  have hp : ((z % 2 ^ 32).toNat : ℤ) = z ∨ ((z % 2 ^ 32).toNat : ℤ) = z + 2 ^ 32 := by
    rcases le_or_lt 0 z with h0 | h0
    · left
      have : z % (2 ^ 32) = z := Int.emod_eq_of_lt h0 (by omega)
      omega
    · right
      have h1 : (z + 2 ^ 32) % (2 ^ 32) = z + 2 ^ 32 :=
        Int.emod_eq_of_lt (by omega) (by omega)
      have h2 : (z + 2 ^ 32) % (2 ^ 32) = z % (2 ^ 32) := by
        rw [show z + 2 ^ 32 = z + 2 ^ 32 * 1 by ring, Int.add_mul_emod_self_left]
      omega
  unfold toSigned32
  split_ifs with hc <;> omega

lemma i64Wrap_eq_self (z : ℤ) (hl : -(2 ^ 63) ≤ z) (hu : z < 2 ^ 63) : i64Wrap z = z := by
  unfold i64Wrap
  have hp : ((z % 2 ^ 64).toNat : ℤ) = z ∨ ((z % 2 ^ 64).toNat : ℤ) = z + 2 ^ 64 := by
    rcases le_or_lt 0 z with h0 | h0
    · left
      have : z % (2 ^ 64) = z := Int.emod_eq_of_lt h0 (by omega)
      omega
    · right
      have h1 : (z + 2 ^ 64) % (2 ^ 64) = z + 2 ^ 64 :=
        Int.emod_eq_of_lt (by omega) (by omega)
      have h2 : (z + 2 ^ 64) % (2 ^ 64) = z % (2 ^ 64) := by
        rw [show z + 2 ^ 64 = z + 2 ^ 64 * 1 by ring, Int.add_mul_emod_self_left]
      omega
  unfold toSigned64
  split_ifs with hc <;> omega

/-- Below `2^31`, the source's `(SIZE as i32 - 32).max(0) as usize` is the
plain truncated subtraction. -/
lemma start_idx_eq (SIZE : ℕ) (h : SIZE < 2 ^ 31) :
    (max (i32Wrap (i32Wrap (SIZE : ℤ) - 32)) 0).toNat = SIZE - 32 := by
  have h1 : i32Wrap (SIZE : ℤ) = (SIZE : ℤ) :=
    i32Wrap_eq_self _ (by omega) (by exact_mod_cast h)
  rw [h1]
  have h2 : i32Wrap ((SIZE : ℤ) - 32) = (SIZE : ℤ) - 32 :=
    i32Wrap_eq_self _ (by omega) (by omega)
  rw [h2]
  omega

/-- Below `2^31`, the source's `(32 - SIZE as i32).max(0) as usize` is the
plain truncated subtraction. -/
lemma extend_bits_eq (SIZE : ℕ) (h : SIZE < 2 ^ 31) :
    (max (i32Wrap (32 - i32Wrap (SIZE : ℤ))) 0).toNat = 32 - SIZE := by
  have h1 : i32Wrap (SIZE : ℤ) = (SIZE : ℤ) :=
    i32Wrap_eq_self _ (by omega) (by exact_mod_cast h)
  rw [h1]
  have h2 : i32Wrap (32 - (SIZE : ℤ)) = 32 - (SIZE : ℤ) :=
    i32Wrap_eq_self _ (by omega) (by omega)
  rw [h2]
  omega

/-- One wrap to the left of the representable band: for
`2^31 ≤ z < 2^31 + 2^32` the `as i32` cast lands on `z - 2^32`. -/
lemma i32Wrap_eq_sub (z : ℤ) (hl : 2 ^ 31 ≤ z) (hu : z < 2 ^ 31 + 2 ^ 32) :
    i32Wrap z = z - 2 ^ 32 := by
  unfold i32Wrap
  have hp : ((z % 2 ^ 32).toNat : ℤ) = z ∨ ((z % 2 ^ 32).toNat : ℤ) = z - 2 ^ 32 := by
    rcases lt_or_le z (2 ^ 32) with h0 | h0
    · left
      have : z % (2 ^ 32) = z := Int.emod_eq_of_lt (by omega) h0
      omega
    · right
      have h1 : (z - 2 ^ 32) % (2 ^ 32) = z - 2 ^ 32 :=
        Int.emod_eq_of_lt (by omega) (by omega)
      have h2 : (z - 2 ^ 32) % (2 ^ 32) = z % (2 ^ 32) := by
        rw [show z - 2 ^ 32 = z + 2 ^ 32 * (-1) by ring, Int.add_mul_emod_self_left]
      omega
  unfold toSigned32
  split_ifs with hc <;> omega

/-- At `SIZE = 2^31 + 32` the truncated `SIZE as i32` is `i32::MIN + 32`,
and the start-index expression of `unsigned_value`/`signed_value` clamps
to `0` (identically in both build modes: no intermediate step overflows
`i32` here). -/
lemma start_idx_big :
    (max (i32Wrap (i32Wrap ((2 ^ 31 + 32 : ℕ) : ℤ) - 32)) 0).toNat = 0 := by
  have hc : ((2 ^ 31 + 32 : ℕ) : ℤ) = 2 ^ 31 + 32 := by push_cast
  rw [hc, i32Wrap_eq_sub (2 ^ 31 + 32) (by norm_num) (by norm_num)]
  rw [show (2 ^ 31 + 32 - 2 ^ 32 - 32 : ℤ) = -(2 ^ 31) by norm_num]
  rw [i32Wrap_eq_self (-(2 ^ 31)) (by norm_num) (by norm_num)]
  rw [max_eq_right (by norm_num : -(2 ^ 31 : ℤ) ≤ 0)]
  rfl

/-- At `SIZE = 2^31 + 32` the release build's `32 - SIZE as i32` wraps to
`i32::MIN + ...`; after `.max(0)` the extension count is `0`. -/
lemma extend_bits_big :
    (max (i32Wrap (32 - i32Wrap ((2 ^ 31 + 32 : ℕ) : ℤ))) 0).toNat = 0 := by
  have hc : ((2 ^ 31 + 32 : ℕ) : ℤ) = 2 ^ 31 + 32 := by push_cast
  rw [hc, i32Wrap_eq_sub (2 ^ 31 + 32) (by norm_num) (by norm_num)]
  rw [show (32 - (2 ^ 31 + 32 - 2 ^ 32) : ℤ) = 2 ^ 31 by norm_num]
  rw [i32Wrap_eq_sub (2 ^ 31) le_rfl (by norm_num)]
  rw [show (2 ^ 31 - 2 ^ 32 : ℤ) = -(2 ^ 31) by norm_num]
  rw [max_eq_right (by norm_num : -(2 ^ 31 : ℤ) ≤ 0)]
  rfl

/-! ### Scalar conversion round trips (claims C3, C4) -/

lemma unsigned_value_from_unsigned_le32 (N x : ℕ) (hN : N ≤ 32) :
    Bits.unsigned_value (Bits.from_unsigned N x) = x % 2 ^ N := by
  set g : ℕ → Bool := fun i => ((x >>> (N - 1 - i)) &&& 1) != 0 with hg
  have hfu : Bits.from_unsigned N x = (List.range N).map g := by
    unfold Bits.from_unsigned
    rw [if_pos hN]
  have hlen : ((List.range N).map g).length = N := by simp
  rw [Bits.unsigned_value, hfu, hlen]
  rw [min_eq_left hN, start_idx_eq N (by omega), Nat.sub_eq_zero_of_le hN]
  simp only [Nat.zero_add]
  rw [fold_bits N hN (fun i => bit (((List.range N).map g).getD i false))
    (fun i => bit_le_one _) 0 (Nat.two_pow_pos _)]
  rw [Nat.zero_mul, Nat.zero_add]
  calc ∑ i ∈ Finset.range N, bit (((List.range N).map g).getD i false) * 2 ^ (N - 1 - i)
      = ∑ i ∈ Finset.range N, (x.testBit (N - 1 - i)).toNat * 2 ^ (N - 1 - i) := by
        apply Finset.sum_congr rfl
        intro i hi
        rw [Finset.mem_range] at hi
        have hgi : g i = x.testBit (N - 1 - i) := shift_and_testBit x (N - 1 - i)
        rw [getD_map_range g N i hi, bit_toNat, hgi]
    _ = ∑ i ∈ Finset.range N, (x.testBit i).toNat * 2 ^ i :=
        Finset.sum_range_reflect (fun j => (x.testBit j).toNat * 2 ^ j) N
    _ = x % 2 ^ N := sum_testBit N x

lemma unsigned_value_from_unsigned_gt32 (N x : ℕ) (hN : 32 < N) (hN31 : N < 2 ^ 31)
    (hx : x < 2 ^ 32) :
    Bits.unsigned_value (Bits.from_unsigned N x) = x := by
  set g : ℕ → Bool := fun i => ((x >>> (31 - i)) &&& 1) != 0 with hg
  have hfu : Bits.from_unsigned N x = List.replicate (N - 32) false ++ (List.range 32).map g := by
    unfold Bits.from_unsigned
    rw [if_neg (by omega)]
  have hlen : (List.replicate (N - 32) false ++ (List.range 32).map g).length = N := by
    simp
    omega
  rw [Bits.unsigned_value, hfu, hlen]
  rw [min_eq_right (by omega : (32 : ℕ) ≤ N), start_idx_eq N hN31]
  have hget : ∀ i < 32,
      (List.replicate (N - 32) false ++ (List.range 32).map g).getD (N - 32 + i) false
        = g i := by
    intro i hi
    rw [List.getD_append_right _ _ _ _ (by simp)]
    simp only [List.length_replicate]
    rw [show N - 32 + i - (N - 32) = i by omega]
    exact getD_map_range g 32 i hi
  have hfold :
      (List.range 32).foldl (fun result i => ((result <<< 1) % 2 ^ 32) |||
          bit ((List.replicate (N - 32) false ++ (List.range 32).map g).getD (N - 32 + i) false)) 0
        = 0 * 2 ^ 32 + ∑ i ∈ Finset.range 32,
            bit ((List.replicate (N - 32) false ++ (List.range 32).map g).getD (N - 32 + i) false)
              * 2 ^ (32 - 1 - i) :=
    fold_bits 32 le_rfl _ (fun i => bit_le_one _) 0 (Nat.two_pow_pos _)
  rw [hfold, Nat.zero_mul, Nat.zero_add]
  calc ∑ i ∈ Finset.range 32,
        bit ((List.replicate (N - 32) false ++ (List.range 32).map g).getD (N - 32 + i) false)
          * 2 ^ (32 - 1 - i)
      = ∑ i ∈ Finset.range 32, (x.testBit (31 - i)).toNat * 2 ^ (31 - i) := by
        apply Finset.sum_congr rfl
        intro i hi
        rw [Finset.mem_range] at hi
        have hgi : g i = x.testBit (31 - i) := shift_and_testBit x (31 - i)
        rw [hget i hi, bit_toNat, hgi, show 32 - 1 - i = 31 - i by omega]
    _ = ∑ i ∈ Finset.range 32, (x.testBit i).toNat * 2 ^ i :=
        Finset.sum_range_reflect (fun j => (x.testBit j).toNat * 2 ^ j) 32
    _ = x % 2 ^ 32 := sum_testBit 32 x
    _ = x := Nat.mod_eq_of_lt hx

lemma fold_extend (e : ℕ) (he : e ≤ 32) (b : Bool) :
    (List.range e).foldl (fun r _ => ((r <<< 1) % 2 ^ 32) ||| (if b then 1 else 0)) 0
      = (if b then 1 else 0) * (2 ^ e - 1) := by
  rw [fold_bits e he (fun _ => if b then 1 else 0)
    (by intro i; cases b <;> simp) 0 (Nat.two_pow_pos _)]
  rw [Nat.zero_mul, Nat.zero_add]
  calc ∑ i ∈ Finset.range e, (if b then 1 else 0) * 2 ^ (e - 1 - i)
      = (if b then 1 else 0) * ∑ i ∈ Finset.range e, 2 ^ (e - 1 - i) :=
        (Finset.mul_sum _ _ _).symm
    _ = (if b then 1 else 0) * ∑ i ∈ Finset.range e, 2 ^ i := by
        rw [Finset.sum_range_reflect (fun j => 2 ^ j) e]
    _ = (if b then 1 else 0) * (2 ^ e - 1) := by rw [sum_two_pow]

/-- `from_signed` with its bit extraction written via `Nat.testBit`. -/
lemma from_signed_eq (N : ℕ) (x : ℤ) :
    Bits.from_signed N x = (if N ≤ 32 then
      (List.range N).map (fun i => (x % (2 ^ 32)).toNat.testBit (N - 1 - i))
    else List.replicate (N - 32) (decide (x < 0)) ++
      (List.range 32).map (fun i => (x % (2 ^ 32)).toNat.testBit (31 - i))) := by
  simp only [Bits.from_signed, shift_and_testBit]

lemma emod_toNat_lt (x : ℤ) : (x % (2 ^ 32)).toNat < 2 ^ 32 := by
  have h1 : x.emod (2 ^ 32) < 2 ^ 32 := Int.emod_lt_of_pos x (by norm_num)
  have h2 : 0 ≤ x.emod (2 ^ 32) := Int.emod_nonneg x (by norm_num)
  omega

lemma pat_nonneg_eq (x : ℤ) (h0 : 0 ≤ x) (h : x < 2 ^ 32) :
    ((x % (2 ^ 32)).toNat : ℤ) = x := by
  rw [Int.emod_eq_of_lt h0 h, Int.toNat_of_nonneg h0]

lemma pat_neg_eq (x : ℤ) (hl : -(2 ^ 32) ≤ x) (h : x < 0) :
    ((x % (2 ^ 32)).toNat : ℤ) = x + 2 ^ 32 := by
  have h1 : x % (2 ^ 32) = x + 2 ^ 32 := by
    have h2 : (x + 2 ^ 32) % (2 ^ 32) = x + 2 ^ 32 :=
      Int.emod_eq_of_lt (by omega) (by omega)
    have h3 : (x + 2 ^ 32) % (2 ^ 32) = x % (2 ^ 32) := by
      rw [show x + 2 ^ 32 = x + 2 ^ 32 * 1 by ring, Int.add_mul_emod_self_left]
    rw [← h3, h2]
  rw [h1, Int.toNat_of_nonneg (by omega)]

lemma signed_value_from_signed_le32 (N : ℕ) (x : ℤ) (hN1 : 1 ≤ N) (hN : N ≤ 32)
    (hl : -(2 ^ (N - 1)) ≤ x) (hu : x < 2 ^ (N - 1)) :
    Bits.signed_value (Bits.from_signed N x) = x := by
  obtain ⟨P, hP⟩ : ∃ p, (x % (2 ^ 32)).toNat = p := ⟨_, rfl⟩
  have hPlt : P < 2 ^ 32 := hP ▸ emod_toNat_lt x
  set G : ℕ → Bool := fun i => P.testBit (N - 1 - i) with hG
  have hfs : Bits.from_signed N x = (List.range N).map G := by
    rw [from_signed_eq, if_pos hN, hP]
  have hlen : ((List.range N).map G).length = N := by simp
  have hG0 : ((List.range N).map G).getD 0 false = P.testBit (N - 1) := by
    rw [getD_map_range G N 0 (by omega)]
    show P.testBit (N - 1 - 0) = _
    rw [Nat.sub_zero]
  have hpow_sub_le : 2 ^ (N - 1) ≤ 2 ^ 31 := Nat.pow_le_pow_right (by norm_num) (by omega)
  have hpow_lt_N : 2 ^ (N - 1) ≤ 2 ^ N := Nat.pow_le_pow_right (by norm_num) (by omega)
  rw [Bits.signed_value, hfs, hlen, hG0]
  rw [min_eq_left hN, start_idx_eq N (by omega), extend_bits_eq N (by omega),
    Nat.sub_eq_zero_of_le hN]
  simp only [Nat.zero_add]
  rw [fold_extend (32 - N) (by omega) (P.testBit (N - 1))]
  have hr1 : (if P.testBit (N - 1) then 1 else 0) * (2 ^ (32 - N) - 1) < 2 ^ (32 - N) := by
    have := Nat.two_pow_pos (32 - N)
    cases P.testBit (N - 1) <;> simp
  rw [fold_bits N hN (fun i => bit (((List.range N).map G).getD i false))
    (fun i => bit_le_one _) _ hr1]
  have hsum : ∑ i ∈ Finset.range N, bit (((List.range N).map G).getD i false) * 2 ^ (N - 1 - i)
      = P % 2 ^ N := by
    calc ∑ i ∈ Finset.range N, bit (((List.range N).map G).getD i false) * 2 ^ (N - 1 - i)
        = ∑ i ∈ Finset.range N, (P.testBit (N - 1 - i)).toNat * 2 ^ (N - 1 - i) := by
          apply Finset.sum_congr rfl
          intro i hi
          rw [Finset.mem_range] at hi
          rw [getD_map_range G N i hi, bit_toNat]
      _ = ∑ i ∈ Finset.range N, (P.testBit i).toNat * 2 ^ i :=
          Finset.sum_range_reflect (fun j => (P.testBit j).toNat * 2 ^ j) N
      _ = P % 2 ^ N := sum_testBit N P
  rw [hsum]
  rcases le_or_lt 0 x with hx0 | hx0
  · -- non-negative input: the pattern is `x` itself, below `2 ^ (N-1)`
    have hPz : (P : ℤ) = x := by
      rw [← hP]
      exact pat_nonneg_eq x hx0 (by
        have : (2 ^ (N - 1) : ℤ) ≤ 2 ^ 32 := by
          have : ((2 : ℤ) ^ (N - 1)) ≤ 2 ^ 31 := by exact_mod_cast hpow_sub_le
          omega
        omega)
    have hPsmall : P < 2 ^ (N - 1) := by
      have : (P : ℤ) < 2 ^ (N - 1) := hPz ▸ hu
      exact_mod_cast this
    have hbit : P.testBit (N - 1) = false := Nat.testBit_lt_two_pow hPsmall
    rw [hbit]
    simp only [if_neg Bool.false_ne_true, Bool.false_eq_true, if_false, Nat.zero_mul,
      Nat.zero_add]
    rw [Nat.mod_eq_of_lt (lt_of_lt_of_le hPsmall hpow_lt_N)]
    rw [toSigned32, if_pos (lt_of_lt_of_le hPsmall hpow_sub_le)]
    exact hPz
  · -- negative input: the pattern is `x + 2^32`, in the top `2^(N-1)` band
    have hPz : (P : ℤ) = x + 2 ^ 32 := by
      rw [← hP]
      apply pat_neg_eq x _ hx0
      have h1 : ((2 : ℤ) ^ (N - 1)) ≤ 2 ^ 31 := by exact_mod_cast hpow_sub_le
      omega
    have hA := Nat.two_pow_pos (N - 1)
    have hKA : 2 ^ (33 - N) * 2 ^ (N - 1) = 2 ^ 32 := by
      rw [← pow_add]
      congr 1
      omega
    have hEN : 2 ^ (32 - N) * 2 ^ N = 2 ^ 32 := by
      rw [← pow_add]
      congr 1
      omega
    have h2A : 2 ^ N = 2 * 2 ^ (N - 1) := by
      conv_lhs => rw [show N = (N - 1) + 1 by omega]
      rw [pow_succ]
      ring
    have hcast : ((2 ^ (N - 1) : ℕ) : ℤ) = (2 : ℤ) ^ (N - 1) := by
      push_cast
      ring
    have hPge : 2 ^ 32 - 2 ^ (N - 1) ≤ P := by
      have h1 : (2 : ℤ) ^ 32 - 2 ^ (N - 1) ≤ (P : ℤ) := by
        rw [hPz]
        omega
      omega
    -- decompose `P` against the block of size `2 ^ (N-1)`
    have hKpos := Nat.two_pow_pos (33 - N)
    have ht : P - (2 ^ 32 - 2 ^ (N - 1)) < 2 ^ (N - 1) := by omega
    have hPdec : P = (P - (2 ^ 32 - 2 ^ (N - 1))) + (2 ^ (33 - N) - 1) * 2 ^ (N - 1) := by
      have e1 : (2 ^ (33 - N) - 1) * 2 ^ (N - 1) = 2 ^ (33 - N) * 2 ^ (N - 1) - 2 ^ (N - 1) := by
        rw [Nat.sub_mul, one_mul]
      rw [e1, hKA]
      omega
    have hbit : P.testBit (N - 1) = true := by
      rw [Nat.testBit_to_div_mod]
      have hdiv : P / 2 ^ (N - 1) = 2 ^ (33 - N) - 1 := by
        rw [hPdec, Nat.add_mul_div_right _ _ hA,
          Nat.div_eq_of_lt ht, Nat.zero_add]
      rw [hdiv]
      have hKodd : 2 ^ (33 - N) = 2 * 2 ^ (32 - N) := by
        rw [show 33 - N = (32 - N) + 1 by omega, pow_succ]
        ring
      have := Nat.two_pow_pos (32 - N)
      simp only [decide_eq_true_eq]
      omega
    rw [hbit]
    simp only [if_pos, Nat.one_mul]
    have hmod : P % 2 ^ N = 2 ^ (N - 1) + (P - (2 ^ 32 - 2 ^ (N - 1))) := by
      have e2 : (2 ^ (32 - N) - 1) * 2 ^ N = 2 ^ (32 - N) * 2 ^ N - 2 ^ N := by
        rw [Nat.sub_mul, one_mul]
      have hPdec2 : P = (2 ^ (N - 1) + (P - (2 ^ 32 - 2 ^ (N - 1)))) + (2 ^ (32 - N) - 1) * 2 ^ N := by
        rw [e2, hEN]
        have := Nat.two_pow_pos (32 - N)
        have h2Nle : 2 ^ N ≤ 2 ^ 32 := Nat.pow_le_pow_right (by norm_num) hN
        omega
      calc P % 2 ^ N
          = ((2 ^ (N - 1) + (P - (2 ^ 32 - 2 ^ (N - 1)))) + (2 ^ (32 - N) - 1) * 2 ^ N) % 2 ^ N := by
            rw [← hPdec2]
        _ = (2 ^ (N - 1) + (P - (2 ^ 32 - 2 ^ (N - 1)))) % 2 ^ N := by
            rw [Nat.add_mul_mod_self_right]
        _ = 2 ^ (N - 1) + (P - (2 ^ 32 - 2 ^ (N - 1))) := by
            apply Nat.mod_eq_of_lt
            omega
    rw [hmod]
    have hval : (2 ^ (32 - N) - 1) * 2 ^ N + (2 ^ (N - 1) + (P - (2 ^ 32 - 2 ^ (N - 1)))) = P := by
      have e2 : (2 ^ (32 - N) - 1) * 2 ^ N = 2 ^ (32 - N) * 2 ^ N - 2 ^ N := by
        rw [Nat.sub_mul, one_mul]
      rw [e2, hEN]
      have := Nat.two_pow_pos (32 - N)
      have h2Nle : 2 ^ N ≤ 2 ^ 32 := Nat.pow_le_pow_right (by norm_num) hN
      omega
    rw [hval]
    rw [toSigned32, if_neg (by
      have h31 : (2 : ℕ) ^ 31 ≤ 2 ^ 32 - 2 ^ (N - 1) := by
        have : (2 : ℕ) ^ 32 = 2 * 2 ^ 31 := by norm_num
        omega
      omega)]
    rw [hPz]
    ring

lemma signed_value_from_signed_gt32 (N : ℕ) (x : ℤ) (hN : 32 < N) (hN31 : N < 2 ^ 31)
    (hxl : -(2 ^ 31) ≤ x) (hxu : x < 2 ^ 31) :
    Bits.signed_value (Bits.from_signed N x) = x := by
  obtain ⟨P, hP⟩ : ∃ p, (x % (2 ^ 32)).toNat = p := ⟨_, rfl⟩
  have hPlt : P < 2 ^ 32 := hP ▸ emod_toNat_lt x
  set G : ℕ → Bool := fun i => P.testBit (31 - i) with hG
  have hfs : Bits.from_signed N x
      = List.replicate (N - 32) (decide (x < 0)) ++ (List.range 32).map G := by
    rw [from_signed_eq, if_neg (by omega), hP]
  have hlen : (List.replicate (N - 32) (decide (x < 0)) ++ (List.range 32).map G).length = N := by
    simp
    omega
  have hget : ∀ i < 32,
      (List.replicate (N - 32) (decide (x < 0)) ++ (List.range 32).map G).getD (N - 32 + i) false
        = G i := by
    intro i hi
    rw [List.getD_append_right _ _ _ _ (by simp)]
    simp only [List.length_replicate]
    rw [show N - 32 + i - (N - 32) = i by omega]
    exact getD_map_range G 32 i hi
  rw [Bits.signed_value, hfs, hlen]
  rw [min_eq_right (by omega : (32 : ℕ) ≤ N), start_idx_eq N hN31, extend_bits_eq N hN31,
    show 32 - N = 0 by omega]
  simp only [List.range_zero, List.foldl_nil]
  rw [fold_bits 32 le_rfl _ (fun i => bit_le_one _) 0 (Nat.two_pow_pos _)]
  rw [Nat.zero_mul, Nat.zero_add]
  have hsum : ∑ i ∈ Finset.range 32,
      bit ((List.replicate (N - 32) (decide (x < 0)) ++ (List.range 32).map G).getD (N - 32 + i) false)
        * 2 ^ (32 - 1 - i) = P := by
    calc ∑ i ∈ Finset.range 32,
        bit ((List.replicate (N - 32) (decide (x < 0)) ++ (List.range 32).map G).getD (N - 32 + i) false)
          * 2 ^ (32 - 1 - i)
        = ∑ i ∈ Finset.range 32, (P.testBit (31 - i)).toNat * 2 ^ (31 - i) := by
          apply Finset.sum_congr rfl
          intro i hi
          rw [Finset.mem_range] at hi
          rw [hget i hi, bit_toNat, show 32 - 1 - i = 31 - i by omega]
      _ = ∑ i ∈ Finset.range 32, (P.testBit i).toNat * 2 ^ i :=
          Finset.sum_range_reflect (fun j => (P.testBit j).toNat * 2 ^ j) 32
      _ = P % 2 ^ 32 := sum_testBit 32 P
      _ = P := Nat.mod_eq_of_lt hPlt
  rw [hsum]
  rcases le_or_lt 0 x with hx0 | hx0
  · have hPz : (P : ℤ) = x := by
      rw [← hP]
      exact pat_nonneg_eq x hx0 (by omega)
    rw [toSigned32, if_pos (by
      have : (P : ℤ) < 2 ^ 31 := hPz ▸ hxu
      exact_mod_cast this)]
    exact hPz
  · have hPz : (P : ℤ) = x + 2 ^ 32 := by
      rw [← hP]
      exact pat_neg_eq x (by omega) hx0
    rw [toSigned32, if_neg (by
      have h1 : (2 ^ 31 : ℤ) ≤ (P : ℤ) := by
        rw [hPz]
        omega
      intro hcon
      have h2 : (P : ℤ) < 2 ^ 31 := by exact_mod_cast hcon
      omega)]
    rw [hPz]
    ring

/-- Claim C3, amended: for every width `N < 2^31` and every unsigned
32-bit integer `x` representable in `N` bits,
`unsigned_value (from_unsigned x) = x`.  From `N = 2^31` on, the
truncating `SIZE as i32` cast in `unsigned_value` breaks the round trip
(counterexample below at `N = 2^31 + 32`). -/
theorem claim_C3_unsigned_round_trip_amended (N x : ℕ) (hN31 : N < 2 ^ 31)
    (hx32 : x < 2 ^ 32) (hxN : x < 2 ^ N) :
    Bits.unsigned_value (Bits.from_unsigned N x) = x := by
  by_cases h : N ≤ 32
  · rw [unsigned_value_from_unsigned_le32 N x h, Nat.mod_eq_of_lt hxN]
  · exact unsigned_value_from_unsigned_gt32 N x (by omega) hN31 hx32

/-- Witness for the amended C3 at `N = 8`, `x = 200`. -/
theorem claim_C3_witness :
    Bits.unsigned_value (Bits.from_unsigned 8 200) = 200 :=
  claim_C3_unsigned_round_trip_amended 8 200 (by norm_num) (by norm_num) (by norm_num)

/-- Counterexample to claim C3 as stated: at width `N = 2^31 + 32`
(a legal `[bool; N]`), `SIZE as i32` is exactly `i32::MIN + 32`, the
subtraction lands on `i32::MIN` (identically in both build modes), the
`.max(0)` clamps `start_idx` to `0`, and `unsigned_value` reads the 32
most significant bits — all zero after `from_unsigned`'s zero-extension —
so the round trip maps `1` to `0`. -/
theorem claim_C3_counterexample :
    Bits.unsigned_value (Bits.from_unsigned (2 ^ 31 + 32) 1) = 0 ∧
    Bits.unsigned_value (Bits.from_unsigned (2 ^ 31 + 32) 1) ≠ 1 := by
  have key : Bits.unsigned_value (Bits.from_unsigned (2 ^ 31 + 32) 1) = 0 := by
    have hfu : Bits.from_unsigned (2 ^ 31 + 32) 1
        = List.replicate (2 ^ 31 + 32 - 32) false
          ++ (List.range 32).map (fun i => ((1 >>> (31 - i)) &&& 1) != 0) := by
      unfold Bits.from_unsigned
      rw [if_neg (by norm_num)]
    have hlen : (List.replicate (2 ^ 31 + 32 - 32) false
        ++ (List.range 32).map (fun i => ((1 >>> (31 - i)) &&& 1) != 0)).length
        = 2 ^ 31 + 32 := by
      rw [List.length_append, List.length_replicate, List.length_map, List.length_range]
      omega
    rw [Bits.unsigned_value, hfu, hlen]
    rw [min_eq_right (by norm_num : (32 : ℕ) ≤ 2 ^ 31 + 32)]
    rw [start_idx_big]
    simp only [Nat.zero_add]
    rw [fold_bits 32 le_rfl _ (fun i => bit_le_one _) 0 (Nat.two_pow_pos _)]
    rw [Nat.zero_mul, Nat.zero_add]
    apply Finset.sum_eq_zero
    intro i hi
    rw [Finset.mem_range] at hi
    have hget : (List.replicate (2 ^ 31 + 32 - 32) false
        ++ (List.range 32).map (fun i => ((1 >>> (31 - i)) &&& 1) != 0)).getD i false
        = false := by
      rw [List.getD_append _ _ _ _ (by rw [List.length_replicate]; omega)]
      rw [List.getD_eq_getElem _ _ (by rw [List.length_replicate]; omega),
        List.getElem_replicate]
    rw [hget]
    simp [bit]
  exact ⟨key, by rw [key]; omega⟩

/-- Claim C4, amended: for every width `1 ≤ N < 2^31` and every signed
32-bit integer `x` representable in two's complement in `N` bits,
`signed_value (from_signed x) = x`.  From `N = 2^31` on, the truncating
`SIZE as i32` casts in `signed_value` break the round trip (counterexample
below at `N = 2^31 + 32`, where a debug build aborts on the overflowing
`32 - SIZE as i32` and a release build reads the wrong bits). -/
theorem claim_C4_signed_round_trip_amended (N : ℕ) (x : ℤ) (hN1 : 1 ≤ N) (hN31 : N < 2 ^ 31)
    (hx32l : -(2 ^ 31) ≤ x) (hx32u : x < 2 ^ 31)
    (hl : -(2 ^ (N - 1)) ≤ x) (hu : x < 2 ^ (N - 1)) :
    Bits.signed_value (Bits.from_signed N x) = x := by
  by_cases h : N ≤ 32
  · exact signed_value_from_signed_le32 N x hN1 h hl hu
  · exact signed_value_from_signed_gt32 N x (by omega) hN31 hx32l hx32u

/-- Witness for the amended C4 at `N = 8`, `x = -2`. -/
theorem claim_C4_witness :
    Bits.signed_value (Bits.from_signed 8 (-2)) = -2 :=
  claim_C4_signed_round_trip_amended 8 (-2) (by norm_num) (by norm_num) (by norm_num)
    (by norm_num) (by norm_num) (by norm_num)

/-- Counterexample to claim C4 as stated: at width `N = 2^31 + 32` the
overflowing `32 - SIZE as i32` makes a debug build abort and leaves a
release build with `extend_bits = 0` and `start_idx = 0`, so
`signed_value` reads the 32 most significant (sign-extension) bits and
maps `from_signed 1` to `0`, not `1`. -/
theorem claim_C4_counterexample :
    Bits.signed_value (Bits.from_signed (2 ^ 31 + 32) 1) = 0 ∧
    Bits.signed_value (Bits.from_signed (2 ^ 31 + 32) 1) ≠ 1 := by
  have key : Bits.signed_value (Bits.from_signed (2 ^ 31 + 32) 1) = 0 := by
    have hfs : Bits.from_signed (2 ^ 31 + 32) 1
        = List.replicate (2 ^ 31 + 32 - 32) (decide ((1 : ℤ) < 0))
          ++ (List.range 32).map (fun i => ((1 : ℤ) % (2 ^ 32)).toNat.testBit (31 - i)) := by
      rw [from_signed_eq, if_neg (by norm_num)]
    have hlen : (List.replicate (2 ^ 31 + 32 - 32) (decide ((1 : ℤ) < 0))
        ++ (List.range 32).map
          (fun i => ((1 : ℤ) % (2 ^ 32)).toNat.testBit (31 - i))).length = 2 ^ 31 + 32 := by
      rw [List.length_append, List.length_replicate, List.length_map, List.length_range]
      omega
    rw [Bits.signed_value, hfs, hlen]
    rw [min_eq_right (by norm_num : (32 : ℕ) ≤ 2 ^ 31 + 32)]
    rw [start_idx_big, extend_bits_big]
    simp only [List.range_zero, List.foldl_nil, Nat.zero_add]
    rw [fold_bits 32 le_rfl _ (fun i => bit_le_one _) 0 (Nat.two_pow_pos _)]
    rw [Nat.zero_mul, Nat.zero_add]
    have hzero : ∑ i ∈ Finset.range 32,
        bit ((List.replicate (2 ^ 31 + 32 - 32) (decide ((1 : ℤ) < 0))
          ++ (List.range 32).map
            (fun i => ((1 : ℤ) % (2 ^ 32)).toNat.testBit (31 - i))).getD i false)
          * 2 ^ (32 - 1 - i) = 0 := by
      apply Finset.sum_eq_zero
      intro i hi
      rw [Finset.mem_range] at hi
      have hget : (List.replicate (2 ^ 31 + 32 - 32) (decide ((1 : ℤ) < 0))
          ++ (List.range 32).map
            (fun i => ((1 : ℤ) % (2 ^ 32)).toNat.testBit (31 - i))).getD i false = false := by
        rw [List.getD_append _ _ _ _ (by rw [List.length_replicate]; omega)]
        rw [List.getD_eq_getElem _ _ (by rw [List.length_replicate]; omega),
          List.getElem_replicate]
        decide
      rw [hget]
      simp [bit]
    rw [hzero]
    rw [toSigned32, if_pos (by norm_num)]
    rfl
  exact ⟨key, by rw [key]; omega⟩

/-! ### Rotation (claim C7) -/

lemma foldl_set_length (l : List ℕ) (f : ℕ → ℕ) (g : ℕ → Bool) (init : List Bool) :
    (l.foldl (fun r t => r.set (f t) (g t)) init).length = init.length := by
  induction l generalizing init with
  | nil => rfl
  | cons j l ih => simp [ih, List.length_set]

/-- After writing `g t` to position `f t` for every `t < m` (in order), an
injective family of in-bounds positions, position `f i` holds `g i`. -/
lemma foldl_set_getD (m : ℕ) (f : ℕ → ℕ) (g : ℕ → Bool) (init : List Bool)
    (hf : ∀ i < m, f i < init.length)
    (hinj : ∀ i j, i < m → j < m → f i = f j → i = j)
    (i : ℕ) (hi : i < m) :
    ((List.range m).foldl (fun r t => r.set (f t) (g t)) init).getD (f i) false = g i := by
  induction m with
  | zero => omega
  | succ m ih =>
    rw [List.range_succ, List.foldl_append]
    simp only [List.foldl_cons, List.foldl_nil]
    have hlen : ((List.range m).foldl (fun r t => r.set (f t) (g t)) init).length
        = init.length := foldl_set_length _ _ _ _
    rcases Nat.lt_or_ge i m with him | him
    · have hne : f m ≠ f i := by
        intro he
        have := hinj m i (by omega) (by omega) he
        omega
      have hbound : f i < ((List.range m).foldl (fun r t => r.set (f t) (g t)) init).length := by
        rw [hlen]
        exact hf i (by omega)
      rw [List.getD_eq_getElem _ _ (by simpa using hbound)]
      rw [List.getElem_set_ne hne]
      rw [← List.getD_eq_getElem _ false hbound]
      exact ih (fun t ht => hf t (by omega)) (fun a b ha hb => hinj a b (by omega) (by omega)) him
    · have hieq : i = m := by omega
      subst hieq
      have hbound : f i < ((List.range i).foldl (fun r t => r.set (f t) (g t)) init).length := by
        rw [hlen]
        exact hf i hi
      rw [List.getD_eq_getElem _ _ (by simpa [List.length_set] using hbound)]
      exact List.getElem_set_self _

/-- On a nonempty vector the `n % SIZE` reduction succeeds and
`rotate_right` returns the write loop's result. -/
lemma rotate_right_eq (v : List Bool) (n : ℕ) (hv : 0 < v.length) :
    Bits.rotate_right v n = some ((List.range v.length).foldl
      (fun result i => result.set ((i + n % v.length) % v.length) (v.getD i false))
      (Bits.new v.length)) := by
  rw [Bits.rotate_right, if_neg (by omega)]

/-- On a nonempty vector the `n % SIZE` reduction succeeds and
`rotate_left` returns the write loop's result. -/
lemma rotate_left_eq (v : List Bool) (n : ℕ) (hv : 0 < v.length) :
    Bits.rotate_left v n = some ((List.range v.length).foldl
      (fun result i => result.set ((i + v.length - n % v.length) % v.length) (v.getD i false))
      (Bits.new v.length)) := by
  rw [Bits.rotate_left, if_neg (by omega)]

lemma rotate_right_length (v : List Bool) (n : ℕ) (hv : 0 < v.length) :
    ((Bits.rotate_right v n).getD []).length = v.length := by
  rw [rotate_right_eq v n hv, Option.getD_some, foldl_set_length]
  simp [Bits.new]

lemma rotate_left_length (v : List Bool) (n : ℕ) (hv : 0 < v.length) :
    ((Bits.rotate_left v n).getD []).length = v.length := by
  rw [rotate_left_eq v n hv, Option.getD_some, foldl_set_length]
  simp [Bits.new]

lemma mod_cancel_aux (S j k : ℕ) (hj : j < S) (hk : k < S) :
    ((j + k) % S + (S - k)) % S = j := by
  rw [Nat.mod_add_mod]
  rw [show j + k + (S - k) = j + S by omega]
  rw [Nat.add_mod_right, Nat.mod_eq_of_lt hj]

lemma rotate_right_getD (v : List Bool) (n j : ℕ) (hv : 0 < v.length)
    (hj : j < v.length) :
    ((Bits.rotate_right v n).getD []).getD j false
      = v.getD ((j + (v.length - n % v.length)) % v.length) false := by
  have hm : n % v.length < v.length := Nat.mod_lt _ hv
  have hfi : ∀ i < v.length, (i + n % v.length) % v.length < v.length :=
    fun i _ => Nat.mod_lt _ hv
  have hinj : ∀ i j, i < v.length → j < v.length →
      (i + n % v.length) % v.length = (j + n % v.length) % v.length → i = j := by
    intro a b ha hb he
    have h1 : ((a + n % v.length) % v.length + (v.length - n % v.length)) % v.length = a :=
      mod_cancel_aux v.length a (n % v.length) ha hm
    have h2 : ((b + n % v.length) % v.length + (v.length - n % v.length)) % v.length = b :=
      mod_cancel_aux v.length b (n % v.length) hb hm
    rw [← h1, ← h2, he]
  have hi0 : (j + (v.length - n % v.length)) % v.length < v.length := Nat.mod_lt _ hv
  have hkey : ((j + (v.length - n % v.length)) % v.length + n % v.length) % v.length = j := by
    rw [Nat.mod_add_mod]
    rw [show j + (v.length - n % v.length) + n % v.length = j + v.length by omega]
    rw [Nat.add_mod_right, Nat.mod_eq_of_lt hj]
  have := foldl_set_getD v.length (fun i => (i + n % v.length) % v.length)
    (fun i => v.getD i false) (Bits.new v.length)
    (by simpa [Bits.new] using hfi) hinj
    ((j + (v.length - n % v.length)) % v.length) hi0
  simp only [] at this
  rw [hkey] at this
  rw [rotate_right_eq v n hv, Option.getD_some]
  exact this

lemma rotate_left_getD (v : List Bool) (n j : ℕ) (hv : 0 < v.length)
    (hj : j < v.length) :
    ((Bits.rotate_left v n).getD []).getD j false
      = v.getD ((j + n % v.length) % v.length) false := by
  have hm : n % v.length < v.length := Nat.mod_lt _ hv
  have hfi : ∀ i < v.length, (i + v.length - n % v.length) % v.length < v.length :=
    fun i _ => Nat.mod_lt _ hv
  have hback : ∀ a, a < v.length →
      ((a + v.length - n % v.length) % v.length + n % v.length) % v.length = a := by
    intro a ha
    rw [Nat.mod_add_mod]
    rw [show a + v.length - n % v.length + n % v.length = a + v.length by omega]
    rw [Nat.add_mod_right, Nat.mod_eq_of_lt ha]
  have hinj : ∀ i j, i < v.length → j < v.length →
      (i + v.length - n % v.length) % v.length = (j + v.length - n % v.length) % v.length
        → i = j := by
    intro a b ha hb he
    rw [← hback a ha, ← hback b hb, he]
  have hi0 : (j + n % v.length) % v.length < v.length := Nat.mod_lt _ hv
  have hkey : ((j + n % v.length) % v.length + v.length - n % v.length) % v.length = j := by
    rw [show (j + n % v.length) % v.length + v.length - n % v.length
      = (j + n % v.length) % v.length + (v.length - n % v.length) by omega]
    rw [Nat.mod_add_mod]
    rw [show j + n % v.length + (v.length - n % v.length) = j + v.length by omega]
    rw [Nat.add_mod_right, Nat.mod_eq_of_lt hj]
  have := foldl_set_getD v.length (fun i => (i + v.length - n % v.length) % v.length)
    (fun i => v.getD i false) (Bits.new v.length)
    (by simpa [Bits.new] using hfi) hinj
    ((j + n % v.length) % v.length) hi0
  simp only [] at this
  rw [hkey] at this
  rw [rotate_left_eq v n hv, Option.getD_some]
  exact this

/-- Claim C7, amended: for every nonempty bit vector `v` and every natural
`k` (including `k > N`), rotating right by `k` succeeds and rotating the
result left by `k` returns `v`.  On the legal width-0 vector both
rotations abort on `n % SIZE` instead (counterexample below). -/
theorem claim_C7_rotate_round_trip_amended (v : List Bool) (k : ℕ) (hv : 0 < v.length) :
    (Bits.rotate_right v k).bind (fun w => Bits.rotate_left w k) = some v := by
  obtain ⟨R, hR⟩ : ∃ R, Bits.rotate_right v k = some R := ⟨_, rotate_right_eq v k hv⟩
  have hRlen : R.length = v.length := by
    have := rotate_right_length v k hv
    rw [hR, Option.getD_some] at this
    exact this
  have hRget : ∀ j, j < v.length → R.getD j false
      = v.getD ((j + (v.length - k % v.length)) % v.length) false := by
    intro j hj
    have := rotate_right_getD v k j hv hj
    rw [hR, Option.getD_some] at this
    exact this
  rw [hR]
  show Bits.rotate_left R k = some v
  have hRv : 0 < R.length := by omega
  obtain ⟨L, hL⟩ : ∃ L, Bits.rotate_left R k = some L := ⟨_, rotate_left_eq R k hRv⟩
  have hLlen : L.length = R.length := by
    have := rotate_left_length R k hRv
    rw [hL, Option.getD_some] at this
    exact this
  have hLget : ∀ j, j < R.length → L.getD j false
      = R.getD ((j + k % R.length) % R.length) false := by
    intro j hj
    have := rotate_left_getD R k j hRv hj
    rw [hL, Option.getD_some] at this
    exact this
  rw [hL]
  congr 1
  apply List.ext_getElem
  · omega
  · intro j h1 h2
    have hj : j < v.length := h2
    have e1 : L.getD j false = R.getD ((j + k % R.length) % R.length) false :=
      hLget j (by omega)
    rw [hRlen] at e1
    have hidx : (j + k % v.length) % v.length < v.length := Nat.mod_lt _ hv
    have e2 : R.getD ((j + k % v.length) % v.length) false = v.getD j false := by
      rw [hRget _ hidx]
      congr 1
      have hm : k % v.length < v.length := Nat.mod_lt _ hv
      rw [Nat.mod_add_mod]
      rw [show j + k % v.length + (v.length - k % v.length) = j + v.length by omega]
      rw [Nat.add_mod_right, Nat.mod_eq_of_lt hj]
    have e3 := e1.trans e2
    rw [List.getD_eq_getElem _ _ (by omega : j < L.length),
      List.getD_eq_getElem _ _ hj] at e3
    exact e3

/-- Counterexample to claim C7 as stated: the claim covers every width,
but on the width-0 vector (a legal `Bits<0>`) `rotate_right` aborts at
`n % SIZE` before `rotate_left` can run, so the round trip does not
return the vector. -/
theorem claim_C7_counterexample :
    (Bits.rotate_right ([] : List Bool) 5).bind (fun w => Bits.rotate_left w 5) = none ∧
    (Bits.rotate_right ([] : List Bool) 5).bind (fun w => Bits.rotate_left w 5)
      ≠ some [] := by
  constructor
  · rfl
  · intro h
    rw [show (Bits.rotate_right ([] : List Bool) 5).bind (fun w => Bits.rotate_left w 5)
      = (none : Option (List Bool)) from rfl] at h
    exact Option.noConfusion h

/-- Witness for the amended C7 at `v = [true, false, true]`, `k = 5`. -/
theorem claim_C7_witness :
    (Bits.rotate_right [true, false, true] 5).bind (fun w => Bits.rotate_left w 5)
      = some [true, false, true] :=
  claim_C7_rotate_round_trip_amended [true, false, true] 5 (by norm_num)

/-! ### Addition with overflow (claims C1, C8) -/

lemma add_mask_aux (k : ℕ) (hk : k ≤ 63) :
    (List.range k).foldl (fun mask _ => ((mask <<< 1) % 2 ^ 64) ||| 1) 1 = 2 ^ (k + 1) - 1 := by
  induction k with
  | zero => simp
  | succ k ih =>
    rw [List.range_succ, List.foldl_append, ih (by omega)]
    simp only [List.foldl_cons, List.foldl_nil]
    rw [Nat.shiftLeft_eq]
    have h1 : (2 ^ (k + 1) - 1) * 2 ^ 1 = 2 * (2 ^ (k + 1) - 1) := by ring
    have h2 : 2 * (2 ^ (k + 1) - 1) < 2 ^ 64 := by
      have h3 : 2 ^ (k + 1) ≤ 2 ^ 63 := Nat.pow_le_pow_right (by norm_num) (by omega)
      have h4 : (2 : ℕ) ^ 63 * 2 = 2 ^ 64 := by norm_num
      omega
    rw [h1, Nat.mod_eq_of_lt h2, two_mul_lor _ 1 le_rfl]
    have h5 := Nat.two_pow_pos (k + 1)
    have h6 : 2 ^ (k + 1 + 1) = 2 ^ (k + 1) * 2 := pow_succ 2 (k + 1)
    omega

lemma add_mask_eq (N : ℕ) (h1 : 1 ≤ N) (h64 : N ≤ 64) : Bits.add_mask N = 2 ^ N - 1 := by
  rw [Bits.add_mask, show (N + 2 ^ 64 - 1) % 2 ^ 64 = N - 1 by omega,
    add_mask_aux (N - 1) (by omega), show N - 1 + 1 = N by omega]

lemma unsigned_value_replicate_true (N : ℕ) (hN : N ≤ 32) :
    Bits.unsigned_value (List.replicate N true) = 2 ^ N - 1 := by
  rw [Bits.unsigned_value, List.length_replicate]
  rw [min_eq_left hN, start_idx_eq N (by omega), Nat.sub_eq_zero_of_le hN]
  simp only [Nat.zero_add]
  rw [fold_bits N hN _ (fun i => bit_le_one _) 0 (Nat.two_pow_pos _)]
  rw [Nat.zero_mul, Nat.zero_add]
  calc ∑ i ∈ Finset.range N, bit ((List.replicate N true).getD i false) * 2 ^ (N - 1 - i)
      = ∑ i ∈ Finset.range N, 2 ^ (N - 1 - i) := by
        apply Finset.sum_congr rfl
        intro i hi
        rw [Finset.mem_range] at hi
        rw [List.getD_eq_getElem _ _ (by simpa using hi), List.getElem_replicate]
        simp [bit]
    _ = ∑ i ∈ Finset.range N, 2 ^ i := Finset.sum_range_reflect (fun j => 2 ^ j) N
    _ = 2 ^ N - 1 := sum_two_pow N

lemma from_unsigned_zero (N : ℕ) (hN : N ≤ 32) :
    Bits.from_unsigned N 0 = List.replicate N false := by
  unfold Bits.from_unsigned
  rw [if_pos hN]
  refine List.eq_replicate_iff.mpr ⟨by simp, ?_⟩
  intro b hb
  simp only [List.mem_map] at hb
  obtain ⟨i, _, hi⟩ := hb
  rw [← hi]
  simp

/-- Value of the most-positive pattern `0` followed by `M` ones. -/
lemma signed_value_maxPos (M : ℕ) (hM : M + 1 ≤ 32) :
    Bits.signed_value (false :: List.replicate M true) = ((2 ^ M - 1 : ℕ) : ℤ) := by
  have hlen : (false :: List.replicate M true).length = M + 1 := by simp
  rw [Bits.signed_value, hlen, List.getD_cons_zero]
  rw [min_eq_left hM, start_idx_eq (M + 1) (by omega), extend_bits_eq (M + 1) (by omega)]
  rw [fold_extend (32 - (M + 1)) (by omega) false]
  simp only [Bool.false_eq_true, if_false, Nat.zero_mul]
  rw [fold_bits (M + 1) hM _ (fun i => bit_le_one _) 0 (Nat.two_pow_pos _)]
  rw [Nat.zero_mul, Nat.zero_add]
  have hsum : ∑ i ∈ Finset.range (M + 1),
      bit ((false :: List.replicate M true).getD (M + 1 - 32 + i) false) * 2 ^ (M + 1 - 1 - i)
        = 2 ^ M - 1 := by
    have hstart : M + 1 - 32 = 0 := by omega
    rw [hstart]
    simp only [Nat.zero_add]
    rw [Finset.sum_range_succ']
    have h0 : bit ((false :: List.replicate M true).getD 0 false) * 2 ^ (M + 1 - 1 - 0) = 0 := by
      rw [List.getD_cons_zero]
      simp [bit]
    rw [h0, Nat.add_zero]
    calc ∑ i ∈ Finset.range M,
        bit ((false :: List.replicate M true).getD (i + 1) false) * 2 ^ (M + 1 - 1 - (i + 1))
        = ∑ i ∈ Finset.range M, 2 ^ (M - 1 - i) := by
          apply Finset.sum_congr rfl
          intro i hi
          rw [Finset.mem_range] at hi
          rw [List.getD_cons_succ, List.getD_eq_getElem _ _ (by simpa using hi),
            List.getElem_replicate]
          rw [show M + 1 - 1 - (i + 1) = M - 1 - i by omega]
          simp [bit]
      _ = ∑ i ∈ Finset.range M, 2 ^ i := Finset.sum_range_reflect (fun j => 2 ^ j) M
      _ = 2 ^ M - 1 := sum_two_pow M
  rw [hsum]
  rw [toSigned32, if_pos (by
    have : (2 : ℕ) ^ M ≤ 2 ^ 31 := Nat.pow_le_pow_right (by norm_num) (by omega)
    omega)]

/-- The `2u64.pow(SIZE as u32 - 1)` bound of `signed_add` is the plain
`2 ^ (SIZE - 1)` for `1 ≤ SIZE ≤ 63` (no wrap fires there). -/
lemma pow64_eq (S : ℕ) (h1 : 1 ≤ S) (h63 : S ≤ 63) :
    (2 ^ ((S % 2 ^ 32 + 2 ^ 32 - 1) % 2 ^ 32) % 2 ^ 64 : ℕ) = 2 ^ (S - 1) := by
  rw [show (S % 2 ^ 32 + 2 ^ 32 - 1) % 2 ^ 32 = S - 1 by omega]
  exact Nat.mod_eq_of_lt (Nat.pow_lt_pow_right (by norm_num) (by omega))

/-- For `1 ≤ SIZE ≤ 63` the two overflow bounds of `signed_add` reduce to
the exact `-(2^(SIZE-1))` and `2^(SIZE-1) - 1`. -/
lemma signed_bounds_eq (S : ℕ) (h1 : 1 ≤ S) (h63 : S ≤ 63) :
    i64Wrap (-(toSigned64 (2 ^ ((S % 2 ^ 32 + 2 ^ 32 - 1) % 2 ^ 32) % 2 ^ 64)))
        = -((2 : ℤ) ^ (S - 1)) ∧
    toSigned64 ((2 ^ ((S % 2 ^ 32 + 2 ^ 32 - 1) % 2 ^ 32) % 2 ^ 64 + 2 ^ 64 - 1) % 2 ^ 64)
        = (2 : ℤ) ^ (S - 1) - 1 := by
  have hlt : (2 : ℕ) ^ (S - 1) < 2 ^ 63 := Nat.pow_lt_pow_right (by norm_num) (by omega)
  have hone : (1 : ℕ) ≤ 2 ^ (S - 1) := Nat.one_le_two_pow
  constructor
  · rw [pow64_eq S h1 h63, toSigned64, if_pos hlt]
    rw [i64Wrap_eq_self _ (by omega) (by omega)]
    push_cast
    ring
  · rw [pow64_eq S h1 h63]
    rw [show (2 ^ (S - 1) + 2 ^ 64 - 1) % 2 ^ 64 = 2 ^ (S - 1) - 1 by omega]
    rw [toSigned64, if_pos (by omega)]
    push_cast [hone]
    ring

/-- Claim C1, amended: the all-ones-plus-one and max-positive-doubled
overflow facts hold for widths `1 ≤ N ≤ 32` (resp. `2 ≤ N ≤ 32` for the
signed one); the general unsigned overflow flag criterion (`sum` has bit
`N` or higher set, i.e. `2^N ≤ sum`) holds for `N ≤ 63`; and at `N = 64`
the masked `u64` shift makes the release-build flag `sum > 0`, so
all-ones-plus-one reports overflow there even though the 32-bit value
sum is only `2^32`. -/
theorem claim_C1_overflow_boundary_amended :
    (∀ N : ℕ, 1 ≤ N → N ≤ 32 →
      Bits.unsigned_add (List.replicate N true) (Bits.from_unsigned N 1)
        = (List.replicate N false, true)) ∧
    (∀ N : ℕ, 2 ≤ N → N ≤ 32 →
      (Bits.signed_add (false :: List.replicate (N - 1) true)
        (false :: List.replicate (N - 1) true)).2 = true) ∧
    (∀ (N : ℕ) (a b : List Bool), 1 ≤ N → N ≤ 63 → a.length = N → b.length = N →
      ((Bits.unsigned_add a b).2 = true
        ↔ 2 ^ N ≤ Bits.unsigned_value a + Bits.unsigned_value b)) ∧
    Bits.unsigned_add (List.replicate 64 true) (Bits.from_unsigned 64 1)
      = (List.replicate 64 false, true) := by
  refine ⟨?_, ?_, ?_, ?_⟩
  · intro N h1 h32
    rw [Bits.unsigned_add, List.length_replicate]
    rw [unsigned_value_replicate_true N h32]
    rw [unsigned_value_from_unsigned_le32 N 1 h32,
      Nat.mod_eq_of_lt (Nat.one_lt_two_pow (by omega))]
    rw [add_mask_eq N h1 (by omega)]
    have hs : 2 ^ N - 1 + 1 = 2 ^ N := by
      have := Nat.two_pow_pos N
      omega
    rw [hs, Nat.and_pow_two_sub_one_eq_mod, Nat.mod_self, Nat.zero_mod]
    rw [from_unsigned_zero N h32]
    rw [Nat.mod_eq_of_lt (show N < 64 by omega)]
    rw [Nat.shiftRight_eq_div_pow, Nat.div_self (Nat.two_pow_pos N)]
    simp
  · intro N h2 h32
    obtain ⟨M, rfl⟩ : ∃ M, N = M + 1 := ⟨N - 1, by omega⟩
    simp only [Nat.add_sub_cancel]
    have hlen : (false :: List.replicate M true).length = M + 1 := by simp
    rw [Bits.signed_add, hlen]
    rw [(signed_bounds_eq (M + 1) (by omega) (by omega)).1,
      (signed_bounds_eq (M + 1) (by omega) (by omega)).2]
    rw [signed_value_maxPos M (by omega)]
    simp only [Nat.add_sub_cancel]
    have hM1 : (1 : ℕ) ≤ 2 ^ M := Nat.one_le_two_pow
    have hcast : ((2 ^ M - 1 : ℕ) : ℤ) = (2 : ℤ) ^ M - 1 := by
      push_cast [hM1]
      ring
    rw [hcast]
    have hMge : (2 : ℤ) ^ 1 ≤ 2 ^ M := pow_le_pow_right₀ (by norm_num) (by omega)
    simp only [decide_eq_true_eq]
    right
    omega
  · intro N a b h1 h63 hla hlb
    rw [Bits.unsigned_add, hla]
    rw [Nat.mod_eq_of_lt (show N < 64 by omega)]
    simp only [decide_eq_true_eq]
    rw [Nat.shiftRight_eq_div_pow, gt_iff_lt]
    rw [Nat.div_pos_iff (Nat.two_pow_pos N).ne']
  · decide

/-- Counterexample to claim C1 as stated: at width `N = 33` (within the
spec's supported range `N ≤ 64`) all-ones plus one reports no overflow,
and at width `N = 1` the max positive value added to itself reports no
overflow. -/
theorem claim_C1_counterexample :
    (Bits.unsigned_add (List.replicate 33 true) (Bits.from_unsigned 33 1)).2 = false ∧
    (Bits.signed_add [false] [false]).2 = false := by
  constructor <;> decide

/-- Witness for the amended C1 at `N = 8`. -/
theorem claim_C1_witness :
    Bits.unsigned_add (List.replicate 8 true) (Bits.from_unsigned 8 1)
      = (List.replicate 8 false, true) ∧
    (Bits.signed_add (false :: List.replicate 7 true)
      (false :: List.replicate 7 true)).2 = true :=
  ⟨claim_C1_overflow_boundary_amended.1 8 (by norm_num) (by norm_num),
   claim_C1_overflow_boundary_amended.2.1 8 (by norm_num) (by norm_num)⟩

/-- Claim C8: the two concrete `N = 8` addition scenarios. -/
theorem claim_C8_concrete_additions :
    Bits.unsigned_add (Bits.from_unsigned 8 255) (Bits.from_unsigned 8 1)
      = (List.replicate 8 false, true) ∧
    Bits.signed_add (Bits.from_signed 8 127) (Bits.from_signed 8 127)
      = (Bits.from_signed 8 (-2), true) := by
  constructor <;> decide

/-- Claim C6: the two concrete reversed-range extractions over the backing
sequence `"10110010"`. -/
theorem claim_C6_reverse_index_concrete :
    Bits.from_reverse_index 4 [true, false, true, true, false, false, true, false] 3 0
      = some (Except.ok [false, false, true, false]) ∧
    Bits.from_reverse_index 4 [true, false, true, true, false, false, true, false] 7 4
      = some (Except.ok [true, false, true, true]) := by
  constructor <;> rfl

/-! ### Textual construction (claim C2) -/

lemma foldlM_get_set_none (inp : List Char) (l : List ℕ) (acc : List Bool)
    (hex : ∃ i ∈ l, inp.length ≤ i) :
    l.foldlM (fun result i => (inp.get? i).map (fun c => result.set i (c != '0'))) acc
      = none := by
  induction l generalizing acc with
  | nil =>
    obtain ⟨i, hi, _⟩ := hex
    simp at hi
  | cons j l ih =>
    rw [List.foldlM_cons]
    by_cases hj : inp.length ≤ j
    · have hnone : inp.get? j = none := by
        rw [List.get?_eq_getElem?]
        exact List.getElem?_eq_none hj
      rw [hnone]
      rfl
    · obtain ⟨c, hc⟩ : ∃ c, inp.get? j = some c := by
        rw [List.get?_eq_getElem?]
        exact ⟨inp.get ⟨j, by omega⟩, List.getElem?_eq_some.mpr ⟨by omega, rfl⟩⟩
      rw [hc]
      show (l.foldlM (fun result i => (inp.get? i).map (fun c => result.set i (c != '0')))
        (acc.set j (c != '0'))) = none
      apply ih
      obtain ⟨i, hi, hilen⟩ := hex
      rcases List.mem_cons.mp hi with rfl | him
      · omega
      · exact ⟨i, him, hilen⟩

/-- Counterexample to claim C2 as stated: the three-character binary
literal `"101"` against width `N = 4` does not construct a zero-padded
vector — the fill loop runs off the end of the input and aborts
(`unwrap` of `None`). -/
theorem claim_C2_counterexample : Bits.try_from 4 ['1', '0', '1'] = none := by
  rfl

/-- Claim C2, amended: for every width `N` and every binary-literal string
whose stripped length is less than `N` and whose stripped characters are
all `'0'` or `'1'`, textual construction aborts (fails the `unwrap` on the
missing character) instead of succeeding with zero padding. -/
theorem claim_C2_short_literal_amended (N : ℕ) (input : List Char)
    (hshort : (input.filter (fun c => c != ' ')).length < N)
    (hbin : ∀ c ∈ input.filter (fun c => c != ' '), c = '0' ∨ c = '1') :
    Bits.try_from N input = none := by
  rw [Bits.try_from]
  rw [if_neg (by
    rintro (h | h)
    · omega
    · rw [List.any_eq_true] at h
      obtain ⟨c, hc, hval⟩ := h
      rcases hbin c hc with rfl | rfl <;> simp at hval)]
  rw [foldlM_get_set_none _ _ _
    ⟨(input.filter (fun c => c != ' ')).length, List.mem_range.mpr hshort, le_rfl⟩]
  rfl

/-- Witness for the amended C2 at `N = 3`, input `"01"`. -/
theorem claim_C2_witness : Bits.try_from 3 ['0', '1'] = none :=
  claim_C2_short_literal_amended 3 ['0', '1'] (by decide) (by decide)

/-! ### Reversed-range construction error cases (claim C5) -/

/-- Counterexample to claim C5 as stated: with `N = 4` over an 8-element
backing sequence, `hi = 100` exceeds the highest valid index `7`, yet the
constructor reports a width mismatch (found `101`), not the out-of-range
error — the wrapping `usize` subtraction `slice.len() - high` skips the
bounds check. -/
theorem claim_C5_counterexample :
    Bits.from_reverse_index 4 (List.replicate 8 false) 100 0
      = some (Except.error (BitsError.BitWidthMismatch 4 101)) := by
  rfl

/-- Claim C5, amended: after normalizing to `max`/`min`, the constructor
returns the out-of-range error exactly when `max` equals the backing
length (one past the highest valid index); when `max` differs from the
length and the computed width — `max - min + 1` with its `usize` wrap,
which lands on `0` at `max = 2^64 - 1`, `min = 0` — differs from `N`, it
returns the width-mismatch error carrying that wrapped width (this covers
every in-bounds `max`, as the claim stated); and when `max` exceeds the
length while the wrapped width equals `N ≥ 1` it aborts on an
out-of-bounds slice index instead of returning an error. -/
theorem claim_C5_reverse_index_errors_amended (N : ℕ) (slice : List Bool) (hi lo : ℕ)
    (hhi : hi < 2 ^ 64) (hlo : lo < 2 ^ 64) (hlen : slice.length < 2 ^ 64) :
    (max lo hi = slice.length →
      Bits.from_reverse_index N slice hi lo
        = some (Except.error BitsError.BitIndexOutOfRange)) ∧
    (max lo hi ≠ slice.length → (max lo hi - min lo hi + 1) % 2 ^ 64 ≠ N →
      Bits.from_reverse_index N slice hi lo
        = some (Except.error
            (BitsError.BitWidthMismatch N ((max lo hi - min lo hi + 1) % 2 ^ 64)))) ∧
    (slice.length < max lo hi → (max lo hi - min lo hi + 1) % 2 ^ 64 = N → 1 ≤ N →
      Bits.from_reverse_index N slice hi lo = none) := by
  have hmaxlt : max lo hi < 2 ^ 64 := by omega
  refine ⟨?_, ?_, ?_⟩
  · intro hH
    rw [Bits.from_reverse_index, if_pos (by rw [hH]; omega)]
  · intro hne hw
    rw [Bits.from_reverse_index, if_neg (by omega), if_pos hw]
  · intro hlt hwN hN1
    rw [Bits.from_reverse_index, if_neg (by omega), if_neg (by omega)]
    obtain ⟨M, hM⟩ : ∃ M, N = M + 1 := ⟨N - 1, by omega⟩
    rw [hM, List.range_succ_eq_map, List.foldlM_cons]
    have hidx : slice.get?
        (((slice.length + 2 ^ 64 - max lo hi) % 2 ^ 64 + 2 ^ 64 - 1 + 0) % 2 ^ 64) = none := by
      rw [List.get?_eq_getElem?]
      apply List.getElem?_eq_none
      omega
    rw [hidx]
    rfl

/-- Witness for the amended C5: `hi = 4` over a 4-element backing sequence
(`max` equals the length) yields the out-of-range error. -/
theorem claim_C5_witness :
    Bits.from_reverse_index 4 (List.replicate 4 false) 4 1
      = some (Except.error BitsError.BitIndexOutOfRange) :=
  (claim_C5_reverse_index_errors_amended 4 (List.replicate 4 false) 4 1
    (by norm_num) (by norm_num) (by norm_num)).1 (by norm_num)

/-! ### Single-bit access (claim C10) -/

/-- Claim C10: `get_bit` (and `get_bit_mut`) returns `some` of the bit at
most-significant-first position `n` when `n < N` and `none` (never
aborting) when `n ≥ N`, while the bracket indexing operator aborts on
`n ≥ N`. -/
theorem claim_C10_get_bit_vs_index (v : List Bool) (n : ℕ) :
    (n < v.length →
      Bits.get_bit v n = some (v.getD n false)
        ∧ Bits.get_bit_mut v n = some (v.getD n false)) ∧
    (v.length ≤ n →
      Bits.get_bit v n = none ∧ Bits.get_bit_mut v n = none
        ∧ Bits.index_op v n = none) := by
  constructor
  · intro h
    have he : v.get? n = some (v.getD n false) := by
      rw [List.get?_eq_getElem?, List.getD_eq_getElem v false h]
      exact List.getElem?_eq_some.mpr ⟨h, rfl⟩
    exact ⟨he, he⟩
  · intro h
    have he : v.get? n = none := by
      rw [List.get?_eq_getElem?]
      exact List.getElem?_eq_none h
    exact ⟨he, he, he⟩

/-- Witness for C10 on the vector `[true, false]` at `n = 1` and `n = 5`. -/
theorem claim_C10_witness :
    (Bits.get_bit [true, false] 1 = some false
      ∧ Bits.get_bit_mut [true, false] 1 = some false) ∧
    (Bits.get_bit [true, false] 5 = none ∧ Bits.get_bit_mut [true, false] 5 = none
      ∧ Bits.index_op [true, false] 5 = none) :=
  ⟨(claim_C10_get_bit_vs_index [true, false] 1).1 (by norm_num),
   (claim_C10_get_bit_vs_index [true, false] 5).2 (by norm_num)⟩

/-! ### Grouped hexadecimal rendering (claim C9) -/

lemma hexDigit_ne_space : ∀ n, n < 16 → hexDigit n ≠ ' ' := by decide

lemma hexDigits_zero : hexDigits 0 = ['0'] := by
  rw [hexDigits]
  norm_num [hexDigit]

lemma hexDigits_ne_space : ∀ x, ∀ c ∈ hexDigits x, c ≠ ' ' := by
  intro x
  induction x using Nat.strong_induction_on with
  | _ x ih =>
    intro c hc
    rw [hexDigits] at hc
    split_ifs at hc with h
    · simp only [List.mem_singleton] at hc
      subst hc
      exact hexDigit_ne_space x h
    · rw [List.mem_append] at hc
      rcases hc with hc | hc
      · exact ih (x / 16) (Nat.div_lt_self (by omega) (by norm_num)) c hc
      · simp only [List.mem_singleton] at hc
        subst hc
        exact hexDigit_ne_space _ (Nat.mod_lt _ (by norm_num))

lemma hexDigits_ne_nil (x : ℕ) : hexDigits x ≠ [] := by
  rw [hexDigits]
  split_ifs with h
  · simp
  · simp

/-- `{:x}` on a value below `16^w` emits at most `w` digits. -/
lemma hexDigits_length_le : ∀ w x, x < 16 ^ w → 1 ≤ w → (hexDigits x).length ≤ w := by
  intro w
  induction w with
  | zero => omega
  | succ w ih =>
    intro x hx _
    rw [hexDigits]
    split_ifs with h
    · simp
    · rw [List.length_append, List.length_singleton]
      have hw1 : 1 ≤ w := by
        by_contra hw0
        have : w = 0 := by omega
        subst this
        simp at hx
        omega
      have hdiv : x / 16 < 16 ^ w := by
        rw [Nat.div_lt_iff_lt_mul (by norm_num)]
        calc x < 16 ^ (w + 1) := hx
          _ = 16 ^ w * 16 := by ring
      have := ih (x / 16) hdiv hw1
      omega

lemma specHexDigits_snoc (w x : ℕ) :
    specHexDigits (w + 1) x = specHexDigits w (x / 16) ++ [hexDigit (x % 16)] := by
  rw [specHexDigits, specHexDigits, List.range_succ, List.map_append]
  congr 1
  · apply List.map_congr_left
    intro i hi
    rw [List.mem_range] at hi
    congr 2
    rw [Nat.div_div_eq_div_mul]
    congr 1
    rw [← pow_succ']
    congr 1
    omega
  · simp

/-- On its exact digit band `16^w ≤ x < 16^(w+1)`, the minimal rendering
has exactly `w + 1` digits and agrees with the positional description. -/
lemma hexDigits_eq_spec :
    ∀ w x, 16 ^ w ≤ x → x < 16 ^ (w + 1) → hexDigits x = specHexDigits (w + 1) x := by
  intro w
  induction w with
  | zero =>
    intro x h1 h2
    norm_num at h1 h2
    rw [hexDigits, dif_pos h2, specHexDigits]
    rw [show List.range 1 = [0] from rfl]
    simp only [List.map_cons, List.map_nil, Nat.sub_self, Nat.sub_zero, pow_zero, Nat.div_one]
    rw [Nat.mod_eq_of_lt h2]
  | succ w ih =>
    intro x h1 h2
    have hx16 : 16 ≤ x := by
      calc (16 : ℕ) = 16 ^ 1 := by norm_num
        _ ≤ 16 ^ (w + 1) := Nat.pow_le_pow_right (by norm_num) (by omega)
        _ ≤ x := h1
    rw [hexDigits, dif_neg (by omega), specHexDigits_snoc]
    congr 1
    apply ih
    · rw [Nat.le_div_iff_mul_le (by norm_num)]
      calc 16 ^ w * 16 = 16 ^ (w + 1) := by ring
        _ ≤ x := h1
    · rw [Nat.div_lt_iff_lt_mul (by norm_num)]
      calc x < 16 ^ (w + 1 + 1) := h2
        _ = 16 ^ (w + 1) * 16 := by ring

lemma specHexDigits_pad_step (w x : ℕ) (hx : x < 16 ^ w) :
    specHexDigits (w + 1) x = '0' :: specHexDigits w x := by
  rw [specHexDigits, specHexDigits, List.range_succ_eq_map, List.map_cons, List.map_map]
  congr 1
  · have hdw : x / 16 ^ w = 0 := Nat.div_eq_of_lt hx
    rw [show w + 1 - 1 - 0 = w by omega, hdw]
    rfl
  · apply List.map_congr_left
    intro i hi
    rw [List.mem_range] at hi
    simp only [Function.comp_apply]
    have he : w + 1 - 1 - Nat.succ i = w - 1 - i := by omega
    rw [he]

lemma hexStringPad_eq_spec_aux : ∀ w x, 1 ≤ w → x < 16 ^ w →
    List.replicate (w - (hexDigits x).length) '0' ++ hexDigits x = specHexDigits w x := by
  intro w
  induction w with
  | zero => omega
  | succ w ih =>
    intro x h1 hx
    by_cases hlow : 16 ^ w ≤ x
    · rw [hexDigits_eq_spec w x hlow hx]
      have hl : (specHexDigits (w + 1) x).length = w + 1 := by
        simp [specHexDigits]
      rw [hl, Nat.sub_self, List.replicate_zero, List.nil_append]
    · push_neg at hlow
      rcases Nat.eq_zero_or_pos w with hw0 | hw1
      · subst hw0
        norm_num at hlow
        have hx0 : x = 0 := by omega
        subst hx0
        rw [hexDigits_zero, specHexDigits]
        norm_num
        rfl
      · have hlen : (hexDigits x).length ≤ w := hexDigits_length_le w x hlow hw1
        rw [specHexDigits_pad_step w x hlow, ← ih x hw1 hlow]
        rw [show w + 1 - (hexDigits x).length = (w - (hexDigits x).length) + 1 by omega]
        rw [List.replicate_succ, List.cons_append]

/-- In the never-truncating band `x < 16^w`, `1 ≤ w`, the padded `{:01$x}`
format is exactly the `w` positional digits of the spec's description. -/
lemma hexStringPad_eq_spec (w x : ℕ) (h1 : 1 ≤ w) (hx : x < 16 ^ w) :
    hexStringPad w x = specHexDigits w x := by
  rw [hexStringPad]
  exact hexStringPad_eq_spec_aux w x h1 hx

lemma specHexDigits_ne_space (w x : ℕ) : ∀ c ∈ specHexDigits w x, c ≠ ' ' := by
  intro c hc
  simp only [specHexDigits, List.mem_map] at hc
  obtain ⟨i, _, hi⟩ := hc
  rw [← hi]
  exact hexDigit_ne_space _ (Nat.mod_lt _ (by norm_num))

lemma specHexDigits_length (w x : ℕ) : (specHexDigits w x).length = w := by
  simp [specHexDigits]

lemma chunks2_filter_id (p : Char → Bool) :
    ∀ l : List Char, (∀ a ∈ l, p a = true) →
      (chunks2 l).map (fun chunk => chunk.filter p) = chunks2 l := by
  intro l
  induction l using chunks2.induct with
  | case1 => intro _; rfl
  | case2 a =>
    intro h
    have ha := h a (by simp)
    simp [chunks2, List.filter_cons, ha]
  | case3 a b rest ih =>
    intro h
    have ha := h a (by simp)
    have hb := h b (by simp)
    simp only [chunks2, List.map_cons]
    rw [ih (fun x hx => h x (by simp [hx]))]
    simp [List.filter_cons, ha, hb]

lemma map_mk_filter (l : List (List Char)) :
    l.map (fun chunk => String.mk (chunk.filter (fun c => decide (c ≠ ' '))))
      = (l.map (fun chunk => chunk.filter (fun c => decide (c ≠ ' ')))).map
          (fun chunk => String.mk chunk) := by
  rw [List.map_map]
  rfl

lemma fold_bits_lt (L : ℕ) (hL : L ≤ 32) (h : ℕ → ℕ) (hb : ∀ i, h i ≤ 1) :
    (List.range L).foldl (fun r i => ((r <<< 1) % 2 ^ 32) ||| h i) 0 < 2 ^ L := by
  rw [fold_bits L hL h hb 0 (Nat.two_pow_pos _)]
  rw [Nat.zero_mul, Nat.zero_add]
  have h1 := sum_bits_le L h hb
  have h2 := Nat.two_pow_pos L
  omega

/-- The `u32` value reads at most `min SIZE 32` bits, whatever the start
index is. -/
lemma unsigned_value_lt (v : List Bool) :
    Bits.unsigned_value v < 2 ^ (min v.length 32) := by
  rw [Bits.unsigned_value]
  exact fold_bits_lt (min v.length 32) (min_le_right _ _) _ (fun i => bit_le_one _)

/-- Exactness of `SIZE as f32` on the 24-bit significand range. -/
lemma toF32val_eq (n : ℕ) (h : n ≤ 2 ^ 24) : toF32val n = n := by
  rw [toF32val, if_pos h]

lemma log2_pow24_succ : Nat.log2 (2 ^ 24 + 1) = 24 := by
  rw [Nat.log2_eq_log_two]
  exact Nat.log_eq_of_pow_le_of_lt_pow (by norm_num) (by norm_num)

/-- The first inexact width: `2^24 + 1 as f32` ties to even and rounds
down to `2^24`. -/
lemma toF32val_pow24_succ : toF32val (2 ^ 24 + 1) = 2 ^ 24 := by
  rw [toF32val, if_neg (by norm_num)]
  rw [log2_pow24_succ]
  norm_num

/-- The grouped hex renderer agrees with the §4.6 description on widths
`1 ≤ N ≤ 2^24` (where the `f32` digit count is exact): the `⌈N/4⌉`
zero-padded hex digits of the unsigned value, grouped into 2-digit chunks
from the right (first chunk of width 1 when the count is odd), joined with
single spaces and with no blank placeholder left in. -/
lemma pretty_uhex_eq_spec (v : List Bool) (hv : 1 ≤ v.length) (hv24 : v.length ≤ 2 ^ 24) :
    Bits.pretty_uhex_string v = String.intercalate " "
      ((specHexGroups ((v.length + 3) / 4) (Bits.unsigned_value v)).map
        (fun chunk => String.mk chunk)) := by
  have hdig1 : 1 ≤ (v.length + 3) / 4 := by omega
  have hxlt : Bits.unsigned_value v < 16 ^ ((v.length + 3) / 4) := by
    have h1 := unsigned_value_lt v
    have h2 : (16 : ℕ) ^ ((v.length + 3) / 4) = 2 ^ (4 * ((v.length + 3) / 4)) := by
      rw [show (16 : ℕ) = 2 ^ 4 by norm_num, ← pow_mul]
    have h3 : min v.length 32 ≤ 4 * ((v.length + 3) / 4) := by omega
    rw [h2]
    exact lt_of_lt_of_le h1 (Nat.pow_le_pow_right (by norm_num) h3)
  have hdg : (toF32val v.length + 3) / 4 = (v.length + 3) / 4 := by
    rw [toF32val_eq _ hv24]
  have hdne : ∀ c ∈ specHexDigits ((v.length + 3) / 4) (Bits.unsigned_value v), c ≠ ' ' :=
    specHexDigits_ne_space _ _
  rw [Bits.pretty_uhex_string, hdg, hexStringPad_eq_spec _ _ hdig1 hxlt, specHexGroups]
  rcases Nat.mod_two_eq_zero_or_one ((v.length + 3) / 4) with hp | hp
  · rw [hp]
    rw [if_neg (by omega)]
    simp only [List.replicate_zero, List.nil_append]
    congr 1
    rw [map_mk_filter]
    rw [chunks2_filter_id _ _ (fun a ha => decide_eq_true (hdne a ha))]
  · rw [hp, if_pos rfl]
    obtain ⟨d0, rest, hd0⟩ : ∃ d0 rest,
        specHexDigits ((v.length + 3) / 4) (Bits.unsigned_value v) = d0 :: rest := by
      have hl := specHexDigits_length ((v.length + 3) / 4) (Bits.unsigned_value v)
      cases hcase : specHexDigits ((v.length + 3) / 4) (Bits.unsigned_value v) with
      | nil =>
        rw [hcase] at hl
        simp at hl
        omega
      | cons d0 rest => exact ⟨d0, rest, rfl⟩
    rw [hd0]
    rw [show List.replicate 1 ' ' ++ (d0 :: rest) = ' ' :: d0 :: rest from rfl]
    rw [show chunks2 (' ' :: d0 :: rest) = [' ', d0] :: chunks2 rest from rfl]
    simp only [List.map_cons]
    have hd0ne : d0 ≠ ' ' := hdne d0 (by rw [hd0]; simp)
    have hfirst : List.filter (fun c => decide (c ≠ ' ')) [' ', d0] = [d0] := by
      simp [List.filter_cons, hd0ne]
    rw [hfirst]
    rw [show (d0 :: rest).take 1 = [d0] from rfl, show (d0 :: rest).drop 1 = rest from rfl]
    congr 2
    rw [map_mk_filter]
    rw [chunks2_filter_id _ rest
      (fun a ha => decide_eq_true (hdne a (by rw [hd0]; simp [ha])))]

/-- Claim C9, amended: for widths `1 ≤ N ≤ 2^24` (the exact range of the
`f32` digit-count computation) the grouped hexadecimal rendering uses
`⌈N/4⌉` zero-padded hex digits of the unsigned value grouped into 2-digit
chunks separated by single spaces with no leading blank digit; an 8-bit
vector of value `0xAB` renders as exactly `"ab"`, and a 12-bit vector
renders as two space-separated chunks of widths 1 and 2 with no stray
leading space.  At width `0` the formatter still emits one digit (`"0"`),
and from width `2^24 + 1` on the `f32` rounding changes the digit count
(counterexample below). -/
theorem claim_C9_pretty_uhex_amended :
    (∀ v : List Bool, 1 ≤ v.length → v.length ≤ 2 ^ 24 →
      Bits.pretty_uhex_string v = String.intercalate " "
        ((specHexGroups ((v.length + 3) / 4) (Bits.unsigned_value v)).map
          (fun chunk => String.mk chunk))) ∧
    Bits.pretty_uhex_string (Bits.from_unsigned 8 171) = "ab" ∧
    (∀ v : List Bool, v.length = 12 → ∃ a b c : Char,
      a ≠ ' ' ∧ b ≠ ' ' ∧ c ≠ ' ' ∧
      Bits.pretty_uhex_string v = String.mk [a, ' ', b, c]) := by
  refine ⟨fun v h1 h2 => pretty_uhex_eq_spec v h1 h2, ?_, ?_⟩
  · have hlen8 : (Bits.from_unsigned 8 171).length = 8 := by rfl
    have hval : Bits.unsigned_value (Bits.from_unsigned 8 171) = 171 := by
      rw [unsigned_value_from_unsigned_le32 8 171 (by norm_num)]
      norm_num
    have h := pretty_uhex_eq_spec (Bits.from_unsigned 8 171)
      (by rw [hlen8]; norm_num) (by rw [hlen8]; norm_num)
    rw [hlen8, hval] at h
    rw [h]
    rfl
  · intro v hv12
    have h1 := pretty_uhex_eq_spec v (by omega) (by omega)
    rw [hv12] at h1
    norm_num at h1
    refine ⟨hexDigit (Bits.unsigned_value v / 16 ^ 2 % 16),
      hexDigit (Bits.unsigned_value v / 16 ^ 1 % 16),
      hexDigit (Bits.unsigned_value v / 16 ^ 0 % 16),
      hexDigit_ne_space _ (Nat.mod_lt _ (by norm_num)),
      hexDigit_ne_space _ (Nat.mod_lt _ (by norm_num)),
      hexDigit_ne_space _ (Nat.mod_lt _ (by norm_num)), ?_⟩
    rw [h1]
    rfl

/-- Counterexample to claim C9 as stated: the claim's formula covers every
width, but at width `0` the formatter emits the digit `"0"` where the
described `⌈0/4⌉ = 0`-digit grouping is the empty string, and at width
`2^24 + 1` the digit count the program computes through `SIZE as f32`
(`(toF32val SIZE + 3) / 4`) differs from the claimed `⌈SIZE/4⌉`. -/
theorem claim_C9_counterexample :
    (Bits.pretty_uhex_string [] = "0" ∧
      Bits.pretty_uhex_string [] ≠ String.intercalate " "
        ((specHexGroups ((List.length ([] : List Bool) + 3) / 4)
          (Bits.unsigned_value [])).map (fun chunk => String.mk chunk))) ∧
    (toF32val (2 ^ 24 + 1) + 3) / 4 ≠ (2 ^ 24 + 1 + 3) / 4 := by
  have key : Bits.pretty_uhex_string [] = "0" := by
    have hd : (toF32val (List.length ([] : List Bool)) + 3) / 4 = 0 := by
      rw [show List.length ([] : List Bool) = 0 from rfl, toF32val_eq 0 (by norm_num)]
    rw [Bits.pretty_uhex_string, hd, hexStringPad]
    rw [show Bits.unsigned_value ([] : List Bool) = 0 from rfl, hexDigits_zero]
    rfl
  refine ⟨⟨key, ?_⟩, ?_⟩
  · rw [key]
    decide
  · rw [toF32val_pow24_succ]
    norm_num

/-- Witness for the amended C9 on the width-1 vector `[true]`. -/
theorem claim_C9_witness :
    Bits.pretty_uhex_string [true] = String.intercalate " "
      ((specHexGroups (((true :: []).length + 3) / 4) (Bits.unsigned_value [true])).map
        (fun chunk => String.mk chunk)) :=
  claim_C9_pretty_uhex_amended.1 [true] (by norm_num) (by norm_num)

end Bitmath
